import Mathlib

/-!
Verification of the text-correction engine of the auto-correct editor plugin
(`src/main.ts`).  The engine is shallowly embedded over `List Char`:

* `correctWord`, `wordPassList`   — the word-substitution pass
  `text.replace(/\b\w+\b/g, word => …)` (main.ts lines 105-113);
* `capAfterSepList`, `capFirst`, `capitalizePass` — the capitalization passes
  `replace(/([.!?]\s+|\n)([a-z])/g, …)` and `replace(/^([a-z])/, …)`
  (lines 116-120);
* `autocorrectText` — the whole pipeline (lines 103-123);
* `liveWordEdit` — the word-replacement decision of the live-typing handler
  `applyLiveAutocorrect` (lines 241-262).

Character classes mirror the JavaScript regexes: `\w` is ASCII
`[A-Za-z0-9_]`, `[a-z]` is ASCII lower case, `\s` is the set of JavaScript
whitespace code points, and `toUpperCase`/`toLowerCase` are modelled on the
ASCII range, which is the only range reachable through the dictionary.
-/

namespace AutoCorrect

/-- ASCII `[a-z]`, the class used by the capitalization regexes. -/
def isLowerAlpha (c : Char) : Bool := 97 ≤ c.toNat && c.toNat ≤ 122

/-- ASCII `[A-Z]`. -/
def isUpperAlpha (c : Char) : Bool := 65 ≤ c.toNat && c.toNat ≤ 90

/-- JavaScript `\w`: ASCII letters, digits and underscore. -/
def isWordChar (c : Char) : Bool :=
  isLowerAlpha c || isUpperAlpha c || (48 ≤ c.toNat && c.toNat ≤ 57) || c.toNat == 95

/-- Code points matched by JavaScript `\s`. -/
def wsCodes : List Nat :=
  [9, 10, 11, 12, 13, 32, 160, 5760, 8192, 8193, 8194, 8195, 8196, 8197,
   8198, 8199, 8200, 8201, 8202, 8232, 8233, 8239, 8287, 12288, 65279]

/-- JavaScript `\s`. -/
def isJsSpace (c : Char) : Bool := decide (c.toNat ∈ wsCodes)

/-- The sentence-ending punctuation class `[.!?]` of the capitalization regex. -/
def isSentEnd (c : Char) : Bool := c == '.' || c == '!' || c == '?'

/-- `String.prototype.toLowerCase` restricted to the ASCII range (the only
range that can meet a dictionary key). -/
def jsToLower (c : Char) : Char :=
  if isUpperAlpha c then Char.ofNat (c.toNat + 32) else c

/-- `String.prototype.toUpperCase` restricted to the ASCII range (the only
range the engine ever upper-cases: `[a-z]` matches and dictionary data). -/
def jsToUpper (c : Char) : Char :=
  if isLowerAlpha c then Char.ofNat (c.toNat - 32) else c

theorem char_toNat_ofNat {n : Nat} (h : n < 55296) : (Char.ofNat n).toNat = n := by
  rw [Char.ofNat, dif_pos (Or.inl h)]
  rfl

theorem char_toNat_lt (c : Char) : c.toNat < 1114112 := by
  rcases c.valid with h | h
  · exact Nat.lt_trans h (by decide)
  · exact h.2

theorem char_eq_of_toNat_eq {c d : Char} (h : c.toNat = d.toNat) : c = d := by
  have h1 : Char.ofNat c.toNat = Char.ofNat d.toNat := by rw [h]
  rwa [Char.ofNat_toNat, Char.ofNat_toNat] at h1

theorem jsToUpper_toNat {c : Char} (h : isLowerAlpha c = true) :
    (jsToUpper c).toNat = c.toNat - 32 := by
  have hb : 97 ≤ c.toNat ∧ c.toNat ≤ 122 := by
    simpa [isLowerAlpha] using h
  rw [jsToUpper, if_pos h, char_toNat_ofNat (by omega)]

theorem jsToLower_toNat {c : Char} (h : isUpperAlpha c = true) :
    (jsToLower c).toNat = c.toNat + 32 := by
  have hb : 65 ≤ c.toNat ∧ c.toNat ≤ 90 := by
    simpa [isUpperAlpha] using h
  rw [jsToLower, if_pos h, char_toNat_ofNat (by omega)]

theorem jsToUpper_of_not_lower {c : Char} (h : isLowerAlpha c = false) :
    jsToUpper c = c := by
  rw [jsToUpper, if_neg (by simp [h])]

theorem jsToLower_of_not_upper {c : Char} (h : isUpperAlpha c = false) :
    jsToLower c = c := by
  rw [jsToLower, if_neg (by simp [h])]

theorem lower_not_upper {c : Char} (h : isLowerAlpha c = true) :
    isUpperAlpha c = false := by
  have hb : 97 ≤ c.toNat ∧ c.toNat ≤ 122 := by simpa [isLowerAlpha] using h
  simp only [isUpperAlpha, Bool.and_eq_false_iff, decide_eq_false_iff_not]
  omega

theorem upper_not_lower {c : Char} (h : isUpperAlpha c = true) :
    isLowerAlpha c = false := by
  have hb : 65 ≤ c.toNat ∧ c.toNat ≤ 90 := by simpa [isUpperAlpha] using h
  simp only [isLowerAlpha, Bool.and_eq_false_iff, decide_eq_false_iff_not]
  omega

theorem jsToUpper_ne_self {c : Char} (h : isLowerAlpha c = true) :
    jsToUpper c ≠ c := by
  intro he
  have hb : 97 ≤ c.toNat ∧ c.toNat ≤ 122 := by simpa [isLowerAlpha] using h
  have := congrArg Char.toNat he
  rw [jsToUpper_toNat h] at this
  omega

theorem isUpperAlpha_jsToUpper {c : Char} (h : isLowerAlpha c = true) :
    isUpperAlpha (jsToUpper c) = true := by
  have hb : 97 ≤ c.toNat ∧ c.toNat ≤ 122 := by simpa [isLowerAlpha] using h
  simp only [isUpperAlpha, jsToUpper_toNat h, Bool.and_eq_true, decide_eq_true_eq]
  omega

theorem jsToLower_jsToUpper {c : Char} (h : isLowerAlpha c = true) :
    jsToLower (jsToUpper c) = c := by
  have hb : 97 ≤ c.toNat ∧ c.toNat ≤ 122 := by simpa [isLowerAlpha] using h
  apply char_eq_of_toNat_eq
  rw [jsToLower_toNat (isUpperAlpha_jsToUpper h), jsToUpper_toNat h]
  omega

theorem jsToUpper_of_upper {c : Char} (h : isUpperAlpha c = true) :
    jsToUpper c = c :=
  jsToUpper_of_not_lower (upper_not_lower h)

theorem jsToLower_of_lower {c : Char} (h : isLowerAlpha c = true) :
    jsToLower c = c :=
  jsToLower_of_not_upper (lower_not_upper h)

theorem lower_isWordChar {c : Char} (h : isLowerAlpha c = true) :
    isWordChar c = true := by
  simp [isWordChar, h]

theorem upper_isWordChar {c : Char} (h : isUpperAlpha c = true) :
    isWordChar c = true := by
  simp [isWordChar, h]

theorem lower_not_jsSpace {c : Char} (h : isLowerAlpha c = true) :
    isJsSpace c = false := by
  have hb : 97 ≤ c.toNat ∧ c.toNat ≤ 122 := by simpa [isLowerAlpha] using h
  simp only [isJsSpace, wsCodes, List.mem_cons, List.not_mem_nil, or_false,
    decide_eq_false_iff_not]
  omega

theorem lower_not_sentEnd {c : Char} (h : isLowerAlpha c = true) :
    isSentEnd c = false := by
  have hb : 97 ≤ c.toNat ∧ c.toNat ≤ 122 := by simpa [isLowerAlpha] using h
  simp only [isSentEnd, Bool.or_eq_false_iff, beq_eq_false_iff_ne, ne_eq]
  refine ⟨⟨?_, ?_⟩, ?_⟩ <;> intro he <;> rw [he] at hb <;> simp at hb

theorem lower_ne_newline {c : Char} (h : isLowerAlpha c = true) :
    c ≠ '\n' := by
  have hb : 97 ≤ c.toNat ∧ c.toNat ≤ 122 := by simpa [isLowerAlpha] using h
  intro he; rw [he] at hb; simp at hb

theorem sentEnd_not_jsSpace {c : Char} (h : isSentEnd c = true) :
    isJsSpace c = false := by
  have h3 : (c = '.' ∨ c = '!') ∨ c = '?' := by
    simpa [isSentEnd, beq_iff_eq] using h
  rcases h3 with (rfl | rfl) | rfl <;> decide

theorem sentEnd_ne_newline {c : Char} (h : isSentEnd c = true) :
    c ≠ '\n' := by
  have h3 : (c = '.' ∨ c = '!') ∨ c = '?' := by
    simpa [isSentEnd, beq_iff_eq] using h
  rcases h3 with (rfl | rfl) | rfl <;> decide

theorem sentEnd_not_lower {c : Char} (h : isSentEnd c = true) :
    isLowerAlpha c = false := by
  have h3 : (c = '.' ∨ c = '!') ∨ c = '?' := by
    simpa [isSentEnd, beq_iff_eq] using h
  rcases h3 with (rfl | rfl) | rfl <;> decide

theorem newline_not_lower : isLowerAlpha '\n' = false := by decide

theorem newline_jsSpace : isJsSpace '\n' = true := by decide

theorem length_dropWhile_le (p : Char → Bool) (l : List Char) :
    (l.dropWhile p).length ≤ l.length := by
  induction l with
  | nil => simp
  | cons c cs ih =>
    by_cases h : p c
    · rw [List.dropWhile_cons_of_pos h]; exact Nat.le_trans ih (Nat.le_succ _)
    · rw [List.dropWhile_cons_of_neg h]

theorem takeWhile_eq_self_of_all {p : Char → Bool} {l : List Char}
    (h : ∀ x ∈ l, p x = true) : l.takeWhile p = l := by
  induction l with
  | nil => simp
  | cons c cs ih =>
    rw [List.takeWhile_cons_of_pos (h c (List.mem_cons_self c cs))]
    rw [ih (fun x hx => h x (List.mem_cons_of_mem c hx))]

theorem dropWhile_eq_nil_of_all {p : Char → Bool} {l : List Char}
    (h : ∀ x ∈ l, p x = true) : l.dropWhile p = [] := by
  induction l with
  | nil => simp
  | cons c cs ih =>
    rw [List.dropWhile_cons_of_pos (h c (List.mem_cons_self c cs))]
    exact ih (fun x hx => h x (List.mem_cons_of_mem c hx))

theorem takeWhile_append_of_all {p : Char → Bool} {a : List Char} (b : List Char)
    (h : ∀ x ∈ a, p x = true) : (a ++ b).takeWhile p = a ++ b.takeWhile p := by
  induction a with
  | nil => simp
  | cons c cs ih =>
    rw [List.cons_append, List.takeWhile_cons_of_pos (h c (List.mem_cons_self c cs))]
    rw [ih (fun x hx => h x (List.mem_cons_of_mem c hx)), List.cons_append]

theorem dropWhile_append_of_all {p : Char → Bool} {a : List Char} (b : List Char)
    (h : ∀ x ∈ a, p x = true) : (a ++ b).dropWhile p = b.dropWhile p := by
  induction a with
  | nil => simp
  | cons c cs ih =>
    rw [List.cons_append, List.dropWhile_cons_of_pos (h c (List.mem_cons_self c cs))]
    exact ih (fun x hx => h x (List.mem_cons_of_mem c hx))

theorem takeWhile_append_of_not_all {p : Char → Bool} {a : List Char} (b : List Char)
    (h : ¬ ∀ x ∈ a, p x = true) : (a ++ b).takeWhile p = a.takeWhile p := by
  induction a with
  | nil => exact absurd (by simp) h
  | cons c cs ih =>
    by_cases hc : p c
    · rw [List.cons_append, List.takeWhile_cons_of_pos hc, List.takeWhile_cons_of_pos hc]
      have : ¬ ∀ x ∈ cs, p x = true := by
        intro hall; exact h (by intro x hx; rcases List.mem_cons.1 hx with rfl | hx
                                · exact hc
                                · exact hall x hx)
      rw [ih this]
    · rw [List.cons_append, List.takeWhile_cons_of_neg hc, List.takeWhile_cons_of_neg hc]

theorem dropWhile_append_of_not_all {p : Char → Bool} {a : List Char} (b : List Char)
    (h : ¬ ∀ x ∈ a, p x = true) : (a ++ b).dropWhile p = a.dropWhile p ++ b := by
  induction a with
  | nil => exact absurd (by simp) h
  | cons c cs ih =>
    by_cases hc : p c
    · rw [List.cons_append, List.dropWhile_cons_of_pos hc, List.dropWhile_cons_of_pos hc]
      have : ¬ ∀ x ∈ cs, p x = true := by
        intro hall; exact h (by intro x hx; rcases List.mem_cons.1 hx with rfl | hx
                                · exact hc
                                · exact hall x hx)
      exact ih this
    · rw [List.cons_append, List.dropWhile_cons_of_neg hc, List.dropWhile_cons_of_neg hc,
        List.cons_append]

theorem head_dropWhile_false {p : Char → Bool} {l : List Char} {x : Char}
    {xs : List Char} (h : l.dropWhile p = x :: xs) : p x = false := by
  induction l with
  | nil => simp at h
  | cons c cs ih =>
    by_cases hc : p c
    · rw [List.dropWhile_cons_of_pos hc] at h; exact ih h
    · rw [List.dropWhile_cons_of_neg hc] at h
      cases h; simpa [Bool.not_eq_true] using hc

theorem mem_takeWhile_mem {p : Char → Bool} {l : List Char} {x : Char}
    (h : x ∈ l.takeWhile p) : x ∈ l ∧ p x = true := by
  induction l with
  | nil => simp at h
  | cons c cs ih =>
    by_cases hc : p c
    · rw [List.takeWhile_cons_of_pos hc] at h
      rcases List.mem_cons.1 h with rfl | h
      · exact ⟨List.mem_cons_self _ _, hc⟩
      · rcases ih h with ⟨h1, h2⟩
        exact ⟨List.mem_cons_of_mem _ h1, h2⟩
    · rw [List.takeWhile_cons_of_neg hc] at h; simp at h

/-- The spelling dictionary of `src/main.ts` lines 38-100: lowercase
misspelling paired with its replacement, in source order. -/
def dictEntries : List (String × String) :=
  [("teh", "the"), ("recieve", "receive"), ("definately", "definitely"),
   ("adn", "and"), ("thier", "their"), ("seperate", "separate"),
   ("accomodate", "accommodate"), ("acheive", "achieve"),
   ("beleive", "believe"), ("embarass", "embarrass"),
   ("neccessary", "necessary"), ("grammer", "grammar"),
   ("miniscule", "minuscule"), ("ocassion", "occasion"),
   ("pharoah", "pharaoh"), ("publically", "publicly"),
   ("independant", "independent"), ("judgement", "judgment"),
   ("congradulations", "congratulations"), ("supercede", "supersede"),
   ("irresistable", "irresistible"), ("maintanence", "maintenance"),
   ("privelege", "privilege"), ("begining", "beginning"),
   ("bussiness", "business"), ("wierd", "weird"), ("truely", "truly"),
   ("alot", "a lot"), ("alltogether", "altogether"), ("untill", "until"),
   ("liason", "liaison"), ("adress", "address"), ("calender", "calendar"),
   ("existance", "existence"), ("foriegn", "foreign"),
   ("goverment", "government"), ("harrass", "harass"),
   ("hierachy", "hierarchy"), ("mischevious", "mischievous"),
   ("noticable", "noticeable"), ("perseverence", "perseverance"),
   ("preceed", "precede"), ("succesfully", "successfully"),
   ("tommorow", "tomorrow"), ("unforseen", "unforeseen"),
   ("vaccum", "vacuum"), ("writen", "written"),
   ("curiousity", "curiosity"), ("familar", "familiar"),
   ("guage", "gauge"), ("heirarchy", "hierarchy"),
   ("knowlege", "knowledge"), ("millenium", "millennium"),
   ("possesion", "possession"), ("reccommend", "recommend"),
   ("ridiculous", "ridiculous"), ("sissors", "scissors"),
   ("streighth", "strength"), ("thourough", "thorough"),
   ("tounge", "tongue")]

/-- Own-property fragment of `dictionary[key]`: lookup among the table's own
entries only.  The full JavaScript property access, which also reaches
members inherited from `Object.prototype`, is `jsDictGet` below; the two
agree on every key except `"constructor"` and `"__proto__"`. -/
def dictFind (key : String) : List (String × String) → Option String
  | [] => none
  | (k, v) :: rest => if key = k then some v else dictFind key rest

/-- The replacement callback of `text.replace(/\b\w+\b/g, word => …)`
(main.ts lines 105-113): lowercase the token, look it up, and on a hit
return the stored value, with its first character upper-cased exactly when
`word[0] === word[0].toUpperCase()`.  This version uses the own-property
lookup `dictFind` and is therefore total; the callback under full
property-access semantics, including the TypeError path through inherited
`Object.prototype` members, is `correctWordJs` below, and the two agree on
every token except those lowercasing to `"constructor"` or `"__proto__"`. -/
def correctWord (w : List Char) : List Char :=
  match dictFind (String.mk (w.map jsToLower)) dictEntries with
  | some v =>
    match w, v.data with
    | w0 :: _, v0 :: vt => if w0 = jsToUpper w0 then jsToUpper v0 :: vt else v0 :: vt
    | _, _ => v.data
  | none => w

/-- Global `replace(/\b\w+\b/g, f)`: each maximal run of `\w` characters is
replaced by `f` of the run, all other characters pass through.  `fuel` is an
upper bound on the length of the remaining input, making the recursion
structural. -/
def wrAux (f : List Char → List Char) : Nat → List Char → List Char
  | _, [] => []
  | 0, l => l
  | fuel + 1, c :: cs =>
    if isWordChar c then
      f (c :: cs.takeWhile isWordChar) ++ wrAux f fuel (cs.dropWhile isWordChar)
    else
      c :: wrAux f fuel cs

/-- The word-substitution pass of `autocorrectText` (main.ts lines 105-113). -/
def wordPassList (l : List Char) : List Char := wrAux correctWord l.length l

/-- The maximal `\w` runs of a string, in order (the tokens that
`/\b\w+\b/g` matches). -/
def wtAux : Nat → List Char → List (List Char)
  | _, [] => []
  | 0, _ => []
  | fuel + 1, c :: cs =>
    if isWordChar c then
      (c :: cs.takeWhile isWordChar) :: wtAux fuel (cs.dropWhile isWordChar)
    else
      wtAux fuel cs

/-- Word tokens of a string. -/
def wordTokens (l : List Char) : List (List Char) := wtAux l.length l

/-- Global `replace(/([.!?]\s+|\n)([a-z])/g, (_, sep, char) => sep +
char.toUpperCase())` (main.ts lines 116-119): scan left to right; at a
sentence-ending mark followed by at least one whitespace character and then a
lowercase letter, or at a newline followed directly by a lowercase letter,
emit the separator and the upper-cased letter and resume after the match;
otherwise emit the character and move one position. -/
def casAux : Nat → List Char → List Char
  | _, [] => []
  | 0, l => l
  | fuel + 1, c :: cs =>
    if isSentEnd c then
      if (cs.takeWhile isJsSpace).isEmpty then c :: casAux fuel cs
      else
        match cs.dropWhile isJsSpace with
        | [] => c :: casAux fuel cs
        | d :: ds =>
          if isLowerAlpha d then
            c :: cs.takeWhile isJsSpace ++ jsToUpper d :: casAux fuel ds
          else c :: casAux fuel cs
    else if c = '\n' then
      match cs with
      | [] => [c]
      | d :: ds =>
        if isLowerAlpha d then c :: jsToUpper d :: casAux fuel ds
        else c :: casAux fuel cs
    else c :: casAux fuel cs

/-- The punctuation-capitalization pass (main.ts lines 116-119). -/
def capAfterSepList (l : List Char) : List Char := casAux l.length l

/-- `replace(/^([a-z])/, char => char.toUpperCase())` (main.ts line 120). -/
def capFirst : List Char → List Char
  | [] => []
  | c :: cs => if isLowerAlpha c then jsToUpper c :: cs else c :: cs

/-- Both capitalization replaces of `autocorrectText`, in source order. -/
def capitalizePass (l : List Char) : List Char := capFirst (capAfterSepList l)

/-- `autocorrectText` on a character list: word substitution, then the
capitalization passes (main.ts lines 103-123). -/
def autocorrectList (l : List Char) : List Char :=
  capitalizePass (wordPassList l)

/-- `autocorrectText(text: string): string` (main.ts lines 103-123). -/
def autocorrectText (s : String) : String := String.mk (autocorrectList s.data)

/-- The whole-document command path: `autocorrectText(editor.getValue())`
(main.ts lines 140-143). -/
def commandAutocorrect (content : String) : String := autocorrectText content

/-- The live-typing correction of the extracted word:
`autocorrectText(lastWord)` (main.ts line 259). -/
def liveAutocorrectWord (lastWord : String) : String := autocorrectText lastWord

/-- `triggerChars` of the live handler (main.ts line 246). -/
def triggerChars : List Char := [' ', '.', ',', '!', '?', '\n']

/-- `String.prototype.split(/\b/)`: the maximal runs of same `\w`-class
characters, in order; the empty string splits to `[""]`. -/
def sbAux : Nat → List Char → List (List Char)
  | _, [] => []
  | 0, _ => []
  | fuel + 1, c :: cs =>
    (c :: cs.takeWhile (fun x => isWordChar x == isWordChar c)) ::
      sbAux fuel (cs.dropWhile (fun x => isWordChar x == isWordChar c))

/-- `line.slice(0, ch).split(/\b/)` as used in main.ts line 251. -/
def splitB (l : List Char) : List (List Char) :=
  if l.isEmpty then [[]] else sbAux l.length l

/-- `String.prototype.lastIndexOf`: the largest index at which the pattern
occurs, `-1` if it does not occur (main.ts line 256). -/
def jsLastIndexOf (l pat : List Char) : Int :=
  match ((List.range (l.length + 1)).filter
      (fun i => decide ((l.drop i).take pat.length = pat))).getLast? with
  | some i => (i : Int)
  | none => -1

/-- Arguments of the `editor.replaceRange(corrected, start, end)` call issued
by the live handler: column offsets of the replaced span and the replacement
text. -/
structure LiveEdit where
  start : Int
  stop : Int
  text : List Char
deriving DecidableEq, Repr

/-- The word-replacement decision of `applyLiveAutocorrect` (main.ts lines
242-262): the joined inserted text must end in a trigger character, the
second-to-last word-boundary segment of the line up to the cursor is the
candidate word, and a `replaceRange` is issued only when `autocorrectText`
changes it. -/
def liveWordEdit (typed line : List Char) (ch : Nat) : Option LiveEdit :=
  match typed.getLast? with
  | none => none
  | some lastChar =>
    if lastChar ∈ triggerChars then
      match ((splitB (line.take ch)).dropLast).getLast? with
      | none => none
      | some w =>
        if w = [] then none
        else
          if autocorrectList w ≠ w then
            some ⟨jsLastIndexOf line w, jsLastIndexOf line w + w.length,
                  autocorrectList w⟩
          else none
    else none

theorem wrAux_nil (f : List Char → List Char) (fuel : Nat) : wrAux f fuel [] = [] := by
  cases fuel <;> rfl

theorem wrAux_fuel_eq (f : List Char → List Char) :
    ∀ f1 f2 l, l.length ≤ f1 → l.length ≤ f2 → wrAux f f1 l = wrAux f f2 l := by
  intro f1
  induction f1 with
  | zero =>
    intro f2 l h1 _
    have : l = [] := List.length_eq_zero.1 (Nat.le_zero.1 h1)
    subst this
    rw [wrAux_nil, wrAux_nil]
  | succ n ih =>
    intro f2 l h1 h2
    cases l with
    | nil => rw [wrAux_nil, wrAux_nil]
    | cons c cs =>
      cases f2 with
      | zero => simp at h2
      | succ m =>
        show (if isWordChar c then
                f (c :: cs.takeWhile isWordChar) ++ wrAux f n (cs.dropWhile isWordChar)
              else c :: wrAux f n cs) =
             (if isWordChar c then
                f (c :: cs.takeWhile isWordChar) ++ wrAux f m (cs.dropWhile isWordChar)
              else c :: wrAux f m cs)
        have hcs1 : cs.length ≤ n := Nat.le_of_succ_le_succ h1
        have hcs2 : cs.length ≤ m := Nat.le_of_succ_le_succ h2
        have hd1 : (cs.dropWhile isWordChar).length ≤ n :=
          Nat.le_trans (length_dropWhile_le _ _) hcs1
        have hd2 : (cs.dropWhile isWordChar).length ≤ m :=
          Nat.le_trans (length_dropWhile_le _ _) hcs2
        by_cases hc : isWordChar c
        · rw [if_pos hc, if_pos hc, ih _ _ hd1 hd2]
        · rw [if_neg hc, if_neg hc, ih _ _ hcs1 hcs2]

theorem wordPassList_nil : wordPassList [] = [] := rfl

theorem wordPassList_cons_nonword {c : Char} {cs : List Char}
    (h : isWordChar c = false) : wordPassList (c :: cs) = c :: wordPassList cs := by
  show wrAux correctWord (cs.length + 1) (c :: cs) = c :: wrAux correctWord cs.length cs
  show (if isWordChar c then
          correctWord (c :: cs.takeWhile isWordChar) ++
            wrAux correctWord cs.length (cs.dropWhile isWordChar)
        else c :: wrAux correctWord cs.length cs) = _
  rw [if_neg (by simp [h])]

theorem wordPassList_cons_word {c : Char} {cs : List Char}
    (h : isWordChar c = true) :
    wordPassList (c :: cs) =
      correctWord (c :: cs.takeWhile isWordChar) ++
        wordPassList (cs.dropWhile isWordChar) := by
  show (if isWordChar c then
          correctWord (c :: cs.takeWhile isWordChar) ++
            wrAux correctWord cs.length (cs.dropWhile isWordChar)
        else c :: wrAux correctWord cs.length cs) = _
  rw [if_pos h, wrAux_fuel_eq correctWord cs.length (cs.dropWhile isWordChar).length
    (cs.dropWhile isWordChar) (length_dropWhile_le _ _) (Nat.le_refl _)]
  rfl

theorem wordPassList_all_word {l : List Char} (h0 : l ≠ [])
    (h : ∀ x ∈ l, isWordChar x = true) : wordPassList l = correctWord l := by
  cases l with
  | nil => exact absurd rfl h0
  | cons c cs =>
    rw [wordPassList_cons_word (h c (List.mem_cons_self c cs)),
      takeWhile_eq_self_of_all (fun x hx => h x (List.mem_cons_of_mem c hx)),
      dropWhile_eq_nil_of_all (fun x hx => h x (List.mem_cons_of_mem c hx)),
      wordPassList_nil, List.append_nil]

theorem wordPassList_append_aux :
    ∀ n a b, a.length ≤ n →
      (b = [] ∨ ∃ d ds, b = d :: ds ∧ isWordChar d = false) →
      wordPassList (a ++ b) = wordPassList a ++ wordPassList b := by
  intro n
  induction n with
  | zero =>
    intro a b h1 _
    have : a = [] := List.length_eq_zero.1 (Nat.le_zero.1 h1)
    subst this
    simp [wordPassList_nil]
  | succ n ih =>
    intro a b h1 hb
    cases a with
    | nil => simp [wordPassList_nil]
    | cons c a2 =>
      have ha2 : a2.length ≤ n := Nat.le_of_succ_le_succ h1
      have hbtw : b.takeWhile isWordChar = [] := by
        rcases hb with rfl | ⟨d, ds, rfl, hd⟩
        · rfl
        · rw [List.takeWhile_cons_of_neg (by simp [hd])]
      have hbdw : b.dropWhile isWordChar = b := by
        rcases hb with rfl | ⟨d, ds, rfl, hd⟩
        · rfl
        · rw [List.dropWhile_cons_of_neg (by simp [hd])]
      by_cases hc : isWordChar c
      · rw [List.cons_append, wordPassList_cons_word hc, wordPassList_cons_word hc]
        by_cases hall : ∀ x ∈ a2, isWordChar x = true
        · rw [takeWhile_append_of_all b hall, dropWhile_append_of_all b hall,
            hbtw, hbdw, List.append_nil,
            takeWhile_eq_self_of_all hall, dropWhile_eq_nil_of_all hall,
            wordPassList_nil, List.append_nil]
        · rw [takeWhile_append_of_not_all b hall, dropWhile_append_of_not_all b hall,
            ih (a2.dropWhile isWordChar) b
              (Nat.le_trans (length_dropWhile_le _ _) ha2) hb,
            List.append_assoc]
      · rw [List.cons_append,
          wordPassList_cons_nonword (by simpa using hc),
          wordPassList_cons_nonword (by simpa using hc),
          ih a2 b ha2 hb, List.cons_append]

theorem wordPassList_append {a b : List Char}
    (hb : b = [] ∨ ∃ d ds, b = d :: ds ∧ isWordChar d = false) :
    wordPassList (a ++ b) = wordPassList a ++ wordPassList b :=
  wordPassList_append_aux a.length a b (Nat.le_refl _) hb

theorem wtAux_nil (fuel : Nat) : wtAux fuel [] = [] := by
  cases fuel <;> rfl

theorem wtAux_fuel_eq :
    ∀ f1 f2 l, l.length ≤ f1 → l.length ≤ f2 → wtAux f1 l = wtAux f2 l := by
  intro f1
  induction f1 with
  | zero =>
    intro f2 l h1 _
    have : l = [] := List.length_eq_zero.1 (Nat.le_zero.1 h1)
    subst this
    rw [wtAux_nil, wtAux_nil]
  | succ n ih =>
    intro f2 l h1 h2
    cases l with
    | nil => rw [wtAux_nil, wtAux_nil]
    | cons c cs =>
      cases f2 with
      | zero => simp at h2
      | succ m =>
        show (if isWordChar c then
                (c :: cs.takeWhile isWordChar) :: wtAux n (cs.dropWhile isWordChar)
              else wtAux n cs) =
             (if isWordChar c then
                (c :: cs.takeWhile isWordChar) :: wtAux m (cs.dropWhile isWordChar)
              else wtAux m cs)
        have hcs1 : cs.length ≤ n := Nat.le_of_succ_le_succ h1
        have hcs2 : cs.length ≤ m := Nat.le_of_succ_le_succ h2
        have hd1 : (cs.dropWhile isWordChar).length ≤ n :=
          Nat.le_trans (length_dropWhile_le _ _) hcs1
        have hd2 : (cs.dropWhile isWordChar).length ≤ m :=
          Nat.le_trans (length_dropWhile_le _ _) hcs2
        by_cases hc : isWordChar c
        · rw [if_pos hc, if_pos hc, ih _ _ hd1 hd2]
        · rw [if_neg hc, if_neg hc, ih _ _ hcs1 hcs2]

theorem wordTokens_nil : wordTokens [] = [] := rfl

theorem wordTokens_cons_nonword {c : Char} {cs : List Char}
    (h : isWordChar c = false) : wordTokens (c :: cs) = wordTokens cs := by
  show (if isWordChar c then
          (c :: cs.takeWhile isWordChar) :: wtAux cs.length (cs.dropWhile isWordChar)
        else wtAux cs.length cs) = wtAux cs.length cs
  rw [if_neg (by simp [h])]

theorem wordTokens_cons_word {c : Char} {cs : List Char}
    (h : isWordChar c = true) :
    wordTokens (c :: cs) =
      (c :: cs.takeWhile isWordChar) :: wordTokens (cs.dropWhile isWordChar) := by
  show (if isWordChar c then
          (c :: cs.takeWhile isWordChar) :: wtAux cs.length (cs.dropWhile isWordChar)
        else wtAux cs.length cs) = _
  rw [if_pos h, wtAux_fuel_eq cs.length (cs.dropWhile isWordChar).length
    (cs.dropWhile isWordChar) (length_dropWhile_le _ _) (Nat.le_refl _)]
  rfl

theorem wordTokens_shape_aux :
    ∀ n l, l.length ≤ n → ∀ u ∈ wordTokens l, u ≠ [] ∧ ∀ x ∈ u, isWordChar x = true := by
  intro n
  induction n with
  | zero =>
    intro l h1 u hu
    have : l = [] := List.length_eq_zero.1 (Nat.le_zero.1 h1)
    subst this
    rw [wordTokens_nil] at hu
    simp at hu
  | succ n ih =>
    intro l h1 u hu
    cases l with
    | nil => rw [wordTokens_nil] at hu; simp at hu
    | cons c cs =>
      have hcs : cs.length ≤ n := Nat.le_of_succ_le_succ h1
      by_cases hc : isWordChar c
      · rw [wordTokens_cons_word hc] at hu
        rcases List.mem_cons.1 hu with rfl | hu
        · refine ⟨by simp, ?_⟩
          intro x hx
          rcases List.mem_cons.1 hx with rfl | hx
          · exact hc
          · exact (mem_takeWhile_mem hx).2
        · exact ih (cs.dropWhile isWordChar)
            (Nat.le_trans (length_dropWhile_le _ _) hcs) u hu
      · rw [wordTokens_cons_nonword (by simpa using hc)] at hu
        exact ih cs hcs u hu

theorem wordTokens_shape {l : List Char} {u : List Char} (hu : u ∈ wordTokens l) :
    u ≠ [] ∧ ∀ x ∈ u, isWordChar x = true :=
  wordTokens_shape_aux l.length l (Nat.le_refl _) u hu

theorem wordTokens_fix_aux :
    ∀ n l, l.length ≤ n → (∀ u ∈ wordTokens l, correctWord u = u) →
      wordPassList l = l := by
  intro n
  induction n with
  | zero =>
    intro l h1 _
    have : l = [] := List.length_eq_zero.1 (Nat.le_zero.1 h1)
    subst this
    exact wordPassList_nil
  | succ n ih =>
    intro l h1 hfix
    cases l with
    | nil => exact wordPassList_nil
    | cons c cs =>
      have hcs : cs.length ≤ n := Nat.le_of_succ_le_succ h1
      by_cases hc : isWordChar c
      · rw [wordPassList_cons_word hc]
        have hrun : correctWord (c :: cs.takeWhile isWordChar) =
            c :: cs.takeWhile isWordChar := by
          apply hfix
          rw [wordTokens_cons_word hc]
          exact List.mem_cons_self _ _
        have hrest : wordPassList (cs.dropWhile isWordChar) = cs.dropWhile isWordChar := by
          apply ih _ (Nat.le_trans (length_dropWhile_le _ _) hcs)
          intro u hu
          apply hfix
          rw [wordTokens_cons_word hc]
          exact List.mem_cons_of_mem _ hu
        rw [hrun, hrest, List.cons_append, List.takeWhile_append_dropWhile]
      · rw [wordPassList_cons_nonword (by simpa using hc)]
        have : wordPassList cs = cs := by
          apply ih cs hcs
          intro u hu
          apply hfix
          rwa [wordTokens_cons_nonword (by simpa using hc)]
        rw [this]

theorem wordTokens_fix {l : List Char}
    (hfix : ∀ u ∈ wordTokens l, correctWord u = u) : wordPassList l = l :=
  wordTokens_fix_aux l.length l (Nat.le_refl _) hfix

theorem dict_keys_lower :
    ∀ p ∈ dictEntries, p.1.data ≠ [] ∧ ∀ c ∈ p.1.data, isLowerAlpha c = true := by
  decide

theorem dict_values_shape :
    ∀ p ∈ dictEntries, p.2.data ≠ [] ∧ isLowerAlpha p.2.data.headI = true := by
  decide

theorem dict_values_fix : ∀ p ∈ dictEntries, wordPassList p.2.data = p.2.data := by
  decide

theorem dict_values_upper_fix :
    ∀ p ∈ dictEntries,
      wordPassList (jsToUpper p.2.data.headI :: p.2.data.tail) =
        jsToUpper p.2.data.headI :: p.2.data.tail := by
  decide

theorem dictFind_some_mem :
    ∀ {es : List (String × String)} {key : String} {v : String},
      dictFind key es = some v → (key, v) ∈ es := by
  intro es
  induction es with
  | nil => intro key v h; simp [dictFind] at h
  | cons p rest ih =>
    intro key v h
    rcases p with ⟨k, v2⟩
    by_cases hk : key = k
    · rw [dictFind, if_pos hk] at h
      cases h
      subst hk
      exact List.mem_cons_self _ _
    · rw [dictFind, if_neg hk] at h
      exact List.mem_cons_of_mem _ (ih h)

theorem correctWord_of_find_none {t : List Char}
    (h : dictFind (String.mk (t.map jsToLower)) dictEntries = none) :
    correctWord t = t := by
  simp only [correctWord, h]

theorem correctWord_of_find_some {t0 : Char} {tr : List Char} {v : String}
    {v0 : Char} {vt : List Char}
    (h : dictFind (String.mk ((t0 :: tr).map jsToLower)) dictEntries = some v)
    (hv : v.data = v0 :: vt) :
    correctWord (t0 :: tr) =
      if t0 = jsToUpper t0 then jsToUpper v0 :: vt else v0 :: vt := by
  simp only [correctWord, h, hv]

theorem correctWord_fixpoint {t : List Char} (h0 : t ≠ [])
    (hw : ∀ x ∈ t, isWordChar x = true) :
    wordPassList (correctWord t) = correctWord t := by
  rcases hfind : dictFind (String.mk (t.map jsToLower)) dictEntries with _ | v
  · rw [correctWord_of_find_none hfind, wordPassList_all_word h0 hw,
      correctWord_of_find_none hfind]
  · have hmem : (String.mk (t.map jsToLower), v) ∈ dictEntries :=
      dictFind_some_mem hfind
    rcases dict_values_shape _ hmem with ⟨hvne, _⟩
    rcases hvd : v.data with _ | ⟨v0, vt⟩
    · exact absurd hvd hvne
    rcases t with _ | ⟨t0, tr⟩
    · exact absurd rfl h0
    rw [correctWord_of_find_some hfind hvd]
    by_cases hcond : t0 = jsToUpper t0
    · rw [if_pos hcond]
      have := dict_values_upper_fix _ hmem
      rw [hvd] at this
      simpa using this
    · rw [if_neg hcond]
      have := dict_values_fix _ hmem
      rw [hvd] at this
      exact this

theorem wordPass_idem_aux :
    ∀ n l, l.length ≤ n → wordPassList (wordPassList l) = wordPassList l := by
  intro n
  induction n with
  | zero =>
    intro l h1
    have : l = [] := List.length_eq_zero.1 (Nat.le_zero.1 h1)
    subst this
    rw [wordPassList_nil, wordPassList_nil]
  | succ n ih =>
    intro l h1
    cases l with
    | nil => rw [wordPassList_nil, wordPassList_nil]
    | cons c cs =>
      have hcs : cs.length ≤ n := Nat.le_of_succ_le_succ h1
      by_cases hc : isWordChar c
      · rw [wordPassList_cons_word hc]
        have hb : wordPassList (cs.dropWhile isWordChar) = [] ∨
            ∃ d ds, wordPassList (cs.dropWhile isWordChar) = d :: ds ∧
              isWordChar d = false := by
          rcases hdw : cs.dropWhile isWordChar with _ | ⟨d, ds⟩
          · left; exact wordPassList_nil
          · right
            have hd : isWordChar d = false := head_dropWhile_false hdw
            exact ⟨d, wordPassList ds, wordPassList_cons_nonword hd, hd⟩
        rw [wordPassList_append hb]
        have hrun : wordPassList (correctWord (c :: cs.takeWhile isWordChar)) =
            correctWord (c :: cs.takeWhile isWordChar) := by
          apply correctWord_fixpoint (by simp)
          intro x hx
          rcases List.mem_cons.1 hx with rfl | hx
          · exact hc
          · exact (mem_takeWhile_mem hx).2
        rw [hrun, ih (cs.dropWhile isWordChar)
          (Nat.le_trans (length_dropWhile_le _ _) hcs)]
      · have hc2 : isWordChar c = false := by simpa using hc
        rw [wordPassList_cons_nonword hc2, wordPassList_cons_nonword hc2,
          ih cs hcs]

theorem wordPass_idem (l : List Char) :
    wordPassList (wordPassList l) = wordPassList l :=
  wordPass_idem_aux l.length l (Nat.le_refl _)

/-- Is the head of the list a sentence-ending mark? -/
def headSentEnd (l : List Char) : Bool :=
  match l.head? with
  | some p => isSentEnd p
  | none => false

/-- Is the head of the list a lowercase ASCII letter? -/
def headLower (l : List Char) : Bool :=
  match l.head? with
  | some d => isLowerAlpha d
  | none => false

theorem headSentEnd_nil : headSentEnd [] = false := rfl

theorem headSentEnd_cons {c : Char} {l : List Char} :
    headSentEnd (c :: l) = isSentEnd c := rfl

theorem headLower_nil : headLower [] = false := rfl

theorem headLower_cons {c : Char} {l : List Char} :
    headLower (c :: l) = isLowerAlpha c := rfl

/-- Separator-trigger of the claim: the character `c`, whose left context in
reverse order is `rev`, is a lowercase letter standing immediately after a
line break, or after a sentence-ending mark followed by one or more
whitespace characters. -/
def sepTrigger (rev : List Char) (c : Char) : Bool :=
  isLowerAlpha c &&
    (decide (rev.head? = some '\n') ||
      (!(rev.takeWhile isJsSpace).isEmpty &&
        headSentEnd (rev.dropWhile isJsSpace)))

/-- Position-by-position description of the punctuation-capitalization rule:
upper-case exactly the separator-triggered letters, leave everything else
unchanged. -/
def sepSpecGo (rev : List Char) : List Char → List Char
  | [] => []
  | c :: cs => (if sepTrigger rev c then jsToUpper c else c) :: sepSpecGo (c :: rev) cs

/-- Full trigger of the claim: a lowercase letter at the very start of the
string, or a separator-triggered lowercase letter. -/
def capTriggerSpec (rev : List Char) (c : Char) : Bool :=
  (isLowerAlpha c && decide (rev = [])) || sepTrigger rev c

/-- Position-by-position description of the whole capitalization pass:
upper-case exactly the positions described by `capTriggerSpec`, leave every
other character unchanged. -/
def capSpecGo (rev : List Char) : List Char → List Char
  | [] => []
  | c :: cs => (if capTriggerSpec rev c then jsToUpper c else c) :: capSpecGo (c :: rev) cs

/-- The claim-side description of the capitalization pass. -/
def capSpec (l : List Char) : List Char := capSpecGo [] l

/-- A trigger whose separator crosses from the remaining input `cs` back into
the already-scanned context `rev`: the first non-whitespace character of `cs`
is a lowercase letter and the context supplies the line break, or the
sentence-ending mark with at least one whitespace character in between.  The
scanner re-enters only contexts for which this is false. -/
def crossTrig (rev cs : List Char) : Bool :=
  headLower (cs.dropWhile isJsSpace) &&
    (((cs.takeWhile isJsSpace).isEmpty && decide (rev.head? = some '\n')) ||
      (headSentEnd (rev.dropWhile isJsSpace) &&
        (!(cs.takeWhile isJsSpace).isEmpty || !(rev.takeWhile isJsSpace).isEmpty)))

theorem jsSpace_not_lower {c : Char} (h : isJsSpace c = true) :
    isLowerAlpha c = false := by
  by_cases hl : isLowerAlpha c
  · rw [lower_not_jsSpace hl] at h; cases h
  · simpa using hl

theorem crossTrig_nil_rev (cs : List Char) : crossTrig [] cs = false := by
  simp [crossTrig, headSentEnd_nil]

theorem casAux_nil (fuel : Nat) : casAux fuel [] = [] := by
  cases fuel <;> rfl

theorem sepSpecGo_ws_append {w : List Char} (hw : ∀ x ∈ w, isJsSpace x = true) :
    ∀ rev l, sepSpecGo rev (w ++ l) = w ++ sepSpecGo (w.reverse ++ rev) l := by
  induction w with
  | nil => intro rev l; simp
  | cons x w2 ih =>
    intro rev l
    have hx : isJsSpace x = true := hw x (List.mem_cons_self _ _)
    have hxl : isLowerAlpha x = false := jsSpace_not_lower hx
    rw [List.cons_append]
    show (if sepTrigger rev x then jsToUpper x else x) ::
        sepSpecGo (x :: rev) (w2 ++ l) = _
    rw [if_neg (by simp [sepTrigger, hxl]),
      ih (fun y hy => hw y (List.mem_cons_of_mem _ hy)) (x :: rev) l]
    simp [List.append_assoc]

theorem casAux_cons_sentEnd_nows {n : Nat} {c : Char} {cs : List Char}
    (hse : isSentEnd c = true) (htw : (cs.takeWhile isJsSpace).isEmpty = true) :
    casAux (n + 1) (c :: cs) = c :: casAux n cs := by
  simp only [casAux, hse, htw, if_true]

theorem casAux_cons_sentEnd_dwnil {n : Nat} {c : Char} {cs : List Char}
    (hse : isSentEnd c = true) (hdw : cs.dropWhile isJsSpace = []) :
    casAux (n + 1) (c :: cs) = c :: casAux n cs := by
  simp only [casAux, hse, hdw, if_true]
  split <;> rfl

theorem casAux_cons_sentEnd_hit {n : Nat} {c d : Char} {cs ds : List Char}
    (hse : isSentEnd c = true) (htw : (cs.takeWhile isJsSpace).isEmpty = false)
    (hdw : cs.dropWhile isJsSpace = d :: ds) (hld : isLowerAlpha d = true) :
    casAux (n + 1) (c :: cs) =
      c :: cs.takeWhile isJsSpace ++ jsToUpper d :: casAux n ds := by
  simp only [casAux, hse, htw, hdw, hld, if_true, Bool.false_eq_true, if_false]

theorem casAux_cons_sentEnd_miss {n : Nat} {c d : Char} {cs ds : List Char}
    (hse : isSentEnd c = true) (htw : (cs.takeWhile isJsSpace).isEmpty = false)
    (hdw : cs.dropWhile isJsSpace = d :: ds) (hld : isLowerAlpha d = false) :
    casAux (n + 1) (c :: cs) = c :: casAux n cs := by
  simp only [casAux, hse, htw, hdw, hld, if_true, Bool.false_eq_true, if_false]

theorem casAux_cons_newline_nil {n : Nat} :
    casAux (n + 1) ['\n'] = ['\n'] := by
  simp only [casAux]
  rfl

theorem casAux_cons_newline_lower {n : Nat} {d : Char} {ds : List Char}
    (hld : isLowerAlpha d = true) :
    casAux (n + 1) ('\n' :: d :: ds) = '\n' :: jsToUpper d :: casAux n ds := by
  simp only [casAux, hld]
  rfl

theorem casAux_cons_newline_miss {n : Nat} {d : Char} {ds : List Char}
    (hld : isLowerAlpha d = false) :
    casAux (n + 1) ('\n' :: d :: ds) = '\n' :: casAux n (d :: ds) := by
  simp only [casAux, hld]
  rfl

theorem casAux_cons_other {n : Nat} {c : Char} {cs : List Char}
    (hse : isSentEnd c = false) (hnl : c ≠ '\n') :
    casAux (n + 1) (c :: cs) = c :: casAux n cs := by
  simp only [casAux, hse, hnl, Bool.false_eq_true, if_false]

theorem crossTrig_step_plain {c : Char} {rev cs : List Char}
    (hws : isJsSpace c = false) (hse : isSentEnd c = false) (hnl : c ≠ '\n') :
    crossTrig (c :: rev) cs = false := by
  rw [crossTrig, List.dropWhile_cons_of_neg (by simp [hws]), headSentEnd_cons, hse]
  have : decide ((c :: rev).head? = some '\n') = false := by
    simp [hnl]
  rw [this]
  simp

theorem crossTrig_step_lower {c : Char} {rev cs : List Char}
    (hlc : isLowerAlpha c = true) : crossTrig (c :: rev) cs = false :=
  crossTrig_step_plain (lower_not_jsSpace hlc) (lower_not_sentEnd hlc)
    (lower_ne_newline hlc)

theorem crossTrig_step_sentEnd {c : Char} {rev cs : List Char}
    (hse : isSentEnd c = true)
    (h : headLower (cs.dropWhile isJsSpace) = false ∨
      (cs.takeWhile isJsSpace).isEmpty = true) :
    crossTrig (c :: rev) cs = false := by
  have hws : isJsSpace c = false := sentEnd_not_jsSpace hse
  have hnl : decide ((c :: rev).head? = some '\n') = false := by
    simp [sentEnd_ne_newline hse]
  rw [crossTrig, hnl,
    List.takeWhile_cons_of_neg (p := isJsSpace) (by simp [hws])]
  rcases h with h | h
  · rw [h]; simp
  · rw [h]
    simp

theorem crossTrig_step_ws {c : Char} {rev cs : List Char}
    (hws : isJsSpace c = true) (hnl : c ≠ '\n')
    (hct : crossTrig rev (c :: cs) = false) :
    crossTrig (c :: rev) cs = false := by
  rw [crossTrig, List.takeWhile_cons_of_pos (by simp [hws]),
    List.dropWhile_cons_of_pos (by simp [hws])] at hct ⊢
  have h1 : decide ((c :: rev).head? = some '\n') = false := by simp [hnl]
  rw [h1]
  simp only [List.isEmpty_cons, Bool.false_and, Bool.and_false, Bool.false_or,
    Bool.or_false, Bool.not_false, Bool.true_or, Bool.or_true,
    Bool.and_true] at hct ⊢
  exact hct

theorem crossTrig_step_newline {cs rev : List Char}
    (h2 : (cs.takeWhile isJsSpace).isEmpty = true →
      headLower (cs.dropWhile isJsSpace) = false)
    (hct : crossTrig rev ('\n' :: cs) = false) :
    crossTrig ('\n' :: rev) cs = false := by
  rw [crossTrig] at hct ⊢
  rw [List.takeWhile_cons_of_pos (by simp [newline_jsSpace]),
    List.dropWhile_cons_of_pos (by simp [newline_jsSpace])] at hct
  rw [List.takeWhile_cons_of_pos (by simp [newline_jsSpace]),
    List.dropWhile_cons_of_pos (by simp [newline_jsSpace])]
  have h1 : decide (('\n' :: rev).head? = some '\n') = true := by simp
  rw [h1]
  simp only [List.isEmpty_cons, Bool.false_and, Bool.and_false, Bool.false_or,
    Bool.or_false, Bool.not_false, Bool.true_or, Bool.or_true,
    Bool.and_true] at hct ⊢
  by_cases hE : (cs.takeWhile isJsSpace).isEmpty = true
  · rw [h2 hE]
    simp
  · have hE2 : (cs.takeWhile isJsSpace).isEmpty = false := by
      simpa using hE
    rw [hE2]
    simpa using hct

theorem casAux_eq_sepSpecGo :
    ∀ fuel cs rev, cs.length ≤ fuel → crossTrig rev cs = false →
      casAux fuel cs = sepSpecGo rev cs := by
  intro fuel
  induction fuel with
  | zero =>
    intro cs rev h1 _
    have hnil : cs = [] := List.length_eq_zero.1 (Nat.le_zero.1 h1)
    subst hnil
    rw [casAux_nil]
    rfl
  | succ n ih =>
    intro cs rev h1 hct
    cases cs with
    | nil => rw [casAux_nil]; rfl
    | cons c cs2 =>
      have hcs2 : cs2.length ≤ n := Nat.le_of_succ_le_succ h1
      have hst : sepTrigger rev c = false := by
        by_cases hlc : isLowerAlpha c = true
        · have hnw : isJsSpace c = false := lower_not_jsSpace hlc
          rw [crossTrig, List.takeWhile_cons_of_neg (by simp [hnw]),
            List.dropWhile_cons_of_neg (by simp [hnw]), headLower_cons] at hct
          simp only [List.isEmpty_nil, Bool.true_and, Bool.not_true,
            Bool.false_or] at hct
          rw [sepTrigger, Bool.and_comm (!(rev.takeWhile isJsSpace).isEmpty)
            (headSentEnd (rev.dropWhile isJsSpace))]
          exact hct
        · have hlc2 : isLowerAlpha c = false := by simpa using hlc
          rw [sepTrigger, hlc2]
          simp
      have hspec : sepSpecGo rev (c :: cs2) =
          (if sepTrigger rev c then jsToUpper c else c) ::
            sepSpecGo (c :: rev) cs2 := rfl
      rw [hspec, hst]
      simp only [Bool.false_eq_true, if_false]
      by_cases hse : isSentEnd c = true
      · by_cases htw : (cs2.takeWhile isJsSpace).isEmpty = true
        · rw [casAux_cons_sentEnd_nows hse htw,
            ih cs2 (c :: rev) hcs2 (crossTrig_step_sentEnd hse (Or.inr htw))]
        · have htw2 : (cs2.takeWhile isJsSpace).isEmpty = false := by simpa using htw
          rcases hdw : cs2.dropWhile isJsSpace with _ | ⟨d, ds⟩
          · rw [casAux_cons_sentEnd_dwnil hse hdw,
              ih cs2 (c :: rev) hcs2
                (crossTrig_step_sentEnd hse (Or.inl (by rw [hdw]; rfl)))]
          · by_cases hld : isLowerAlpha d = true
            · rw [casAux_cons_sentEnd_hit hse htw2 hdw hld]
              have hds : ds.length ≤ n := by
                have h4 := length_dropWhile_le isJsSpace cs2
                rw [hdw] at h4
                simp only [List.length_cons] at h4
                omega
              have hallws : ∀ x ∈ cs2.takeWhile isJsSpace, isJsSpace x = true :=
                fun x hx => (mem_takeWhile_mem hx).2
              have hallws2 : ∀ x ∈ (cs2.takeWhile isJsSpace).reverse,
                  isJsSpace x = true :=
                fun x hx => hallws x (List.mem_reverse.1 hx)
              have hsplit : cs2 = cs2.takeWhile isJsSpace ++ (d :: ds) := by
                conv_lhs => rw [← List.takeWhile_append_dropWhile
                  (p := isJsSpace) (l := cs2)]
                rw [hdw]
              have htrig : sepTrigger
                  ((cs2.takeWhile isJsSpace).reverse ++ c :: rev) d = true := by
                rw [sepTrigger, hld, Bool.true_and,
                  takeWhile_append_of_all _ hallws2,
                  dropWhile_append_of_all _ hallws2,
                  List.takeWhile_cons_of_neg (by simp [sentEnd_not_jsSpace hse]),
                  List.dropWhile_cons_of_neg (by simp [sentEnd_not_jsSpace hse]),
                  headSentEnd_cons, hse, List.append_nil]
                have hre : ((cs2.takeWhile isJsSpace).reverse).isEmpty = false := by
                  simp only [List.isEmpty_eq_false] at htw2 ⊢
                  simpa using htw2
                rw [hre]
                simp
              conv_rhs => rw [hsplit]
              rw [sepSpecGo_ws_append hallws]
              have hgo : sepSpecGo
                  ((cs2.takeWhile isJsSpace).reverse ++ c :: rev) (d :: ds) =
                  jsToUpper d :: sepSpecGo
                    (d :: ((cs2.takeWhile isJsSpace).reverse ++ c :: rev)) ds := by
                simp [sepSpecGo, htrig]
              rw [hgo, ih ds
                (d :: ((cs2.takeWhile isJsSpace).reverse ++ c :: rev)) hds
                (crossTrig_step_lower hld), List.cons_append]
            · have hld2 : isLowerAlpha d = false := by simpa using hld
              rw [casAux_cons_sentEnd_miss hse htw2 hdw hld2,
                ih cs2 (c :: rev) hcs2 (crossTrig_step_sentEnd hse
                  (Or.inl (by rw [hdw, headLower_cons]; exact hld2)))]
      · have hse2 : isSentEnd c = false := by simpa using hse
        by_cases hnl : c = '\n'
        · subst hnl
          cases cs2 with
          | nil =>
            rw [casAux_cons_newline_nil]
            rfl
          | cons d ds =>
            have hds : ds.length ≤ n := by
              simp only [List.length_cons] at hcs2
              omega
            by_cases hld : isLowerAlpha d = true
            · rw [casAux_cons_newline_lower hld]
              have htrig : sepTrigger ('\n' :: rev) d = true := by
                rw [sepTrigger, hld, Bool.true_and]
                simp
              have hgo : sepSpecGo ('\n' :: rev) (d :: ds) =
                  jsToUpper d :: sepSpecGo (d :: '\n' :: rev) ds := by
                simp [sepSpecGo, htrig]
              rw [hgo, ih ds (d :: '\n' :: rev) hds (crossTrig_step_lower hld)]
            · have hld2 : isLowerAlpha d = false := by simpa using hld
              rw [casAux_cons_newline_miss hld2]
              have hstep : crossTrig ('\n' :: rev) (d :: ds) = false := by
                apply crossTrig_step_newline ?_ hct
                intro hE
                by_cases hdws : isJsSpace d = true
                · rw [List.takeWhile_cons_of_pos (by simp [hdws])] at hE
                  simp at hE
                · rw [List.dropWhile_cons_of_neg (by simp [hdws]), headLower_cons]
                  exact hld2
              rw [ih (d :: ds) ('\n' :: rev) hcs2 hstep]
        · rw [casAux_cons_other hse2 hnl]
          by_cases hws : isJsSpace c = true
          · rw [ih cs2 (c :: rev) hcs2 (crossTrig_step_ws hws hnl hct)]
          · have hws2 : isJsSpace c = false := by simpa using hws
            rw [ih cs2 (c :: rev) hcs2 (crossTrig_step_plain hws2 hse2 hnl)]

theorem capAfterSepList_eq_sepSpec (l : List Char) :
    capAfterSepList l = sepSpecGo [] l :=
  casAux_eq_sepSpecGo l.length l [] (Nat.le_refl _) (crossTrig_nil_rev l)

theorem capSpecGo_eq_sepSpecGo :
    ∀ cs rev, rev ≠ [] → capSpecGo rev cs = sepSpecGo rev cs := by
  intro cs
  induction cs with
  | nil => intro rev _; rfl
  | cons c cs ih =>
    intro rev hrev
    show (if capTriggerSpec rev c then jsToUpper c else c) :: capSpecGo (c :: rev) cs =
      (if sepTrigger rev c then jsToUpper c else c) :: sepSpecGo (c :: rev) cs
    have h1 : capTriggerSpec rev c = sepTrigger rev c := by
      rw [capTriggerSpec]
      simp [hrev]
    rw [h1, ih (c :: rev) (by simp)]

theorem capitalizePass_eq_capSpec (l : List Char) : capitalizePass l = capSpec l := by
  rw [capitalizePass, capAfterSepList_eq_sepSpec]
  cases l with
  | nil => rfl
  | cons c cs =>
    have h0 : sepTrigger [] c = false := by
      rw [sepTrigger]
      simp [headSentEnd_nil]
    have hgo1 : sepSpecGo [] (c :: cs) = c :: sepSpecGo [c] cs := by
      show (if sepTrigger [] c then jsToUpper c else c) :: sepSpecGo [c] cs = _
      rw [h0]
      simp
    have hgo2 : capSpec (c :: cs) =
        (if isLowerAlpha c then jsToUpper c else c) :: capSpecGo [c] cs := by
      show (if capTriggerSpec [] c then jsToUpper c else c) :: capSpecGo [c] cs = _
      have h2 : capTriggerSpec [] c = isLowerAlpha c := by
        rw [capTriggerSpec, h0]
        simp
      rw [h2]
    rw [hgo1, hgo2, capSpecGo_eq_sepSpecGo cs [c] (by simp)]
    simp only [capFirst]
    by_cases hlc : isLowerAlpha c = true <;> simp [hlc]

theorem dict_keys_nodup : (dictEntries.map Prod.fst).Nodup := by decide

theorem dictFind_of_mem :
    ∀ {es : List (String × String)}, (es.map Prod.fst).Nodup →
      ∀ {m v : String}, (m, v) ∈ es → dictFind m es = some v := by
  intro es
  induction es with
  | nil =>
    intro _ m v h
    simp at h
  | cons p rest ih =>
    intro hnd m v hmem
    rcases p with ⟨k, v2⟩
    rw [List.map_cons, List.nodup_cons] at hnd
    rcases List.mem_cons.1 hmem with heq | hmem2
    · cases heq
      rw [dictFind, if_pos rfl]
    · have hk : m ≠ k := by
        intro he
        subst he
        exact hnd.1 (by simpa using List.mem_map_of_mem Prod.fst hmem2)
      rw [dictFind, if_neg hk]
      exact ih hnd.2 hmem2

theorem case_of_jsToLower {c m0 : Char} (hm : isLowerAlpha m0 = true)
    (h : jsToLower c = m0) :
    isWordChar c = true ∧ ((c = jsToUpper c) ↔ isUpperAlpha c = true) := by
  by_cases hu : isUpperAlpha c = true
  · refine ⟨upper_isWordChar hu, ?_⟩
    rw [hu]
    simp only [iff_true]
    exact (jsToUpper_of_upper hu).symm
  · have hu2 : isUpperAlpha c = false := by simpa using hu
    have hc : c = m0 := by rwa [jsToLower_of_not_upper hu2] at h
    subst hc
    refine ⟨lower_isWordChar hm, ?_⟩
    rw [hu2]
    simp only [Bool.false_eq_true, iff_false]
    intro he
    exact jsToUpper_ne_self hm he.symm

theorem correctWord_dict_entry {m v : String} (hmem : (m, v) ∈ dictEntries)
    {w : List Char} (hw : w ≠ []) (hlow : w.map jsToLower = m.data) :
    correctWord w =
      if isUpperAlpha w.headI = true then jsToUpper v.data.headI :: v.data.tail
      else v.data := by
  have hfind : dictFind (String.mk (w.map jsToLower)) dictEntries = some v := by
    rw [hlow]
    show dictFind m dictEntries = some v
    exact dictFind_of_mem dict_keys_nodup hmem
  rcases w with _ | ⟨w0, wr⟩
  · exact absurd rfl hw
  rcases hvd : v.data with _ | ⟨v0, vt⟩
  · exact absurd hvd (dict_values_shape _ hmem).1
  rw [correctWord_of_find_some hfind hvd]
  have hm0 : isLowerAlpha (jsToLower w0) = true := by
    apply (dict_keys_lower _ hmem).2
    rw [← hlow]
    simp
  have hcase := case_of_jsToLower hm0 rfl
  simp only [List.headI, hvd, List.tail_cons]
  by_cases hu : isUpperAlpha w0 = true
  · rw [if_pos (hcase.2.2 hu), if_pos hu]
  · rw [if_neg (fun he => hu (hcase.2.1 he)), if_neg hu]

theorem correctWord_head_lower {w0 : Char} {wr : List Char}
    (hl : isLowerAlpha w0 = true) :
    ∃ r0 rt, correctWord (w0 :: wr) = r0 :: rt ∧ isLowerAlpha r0 = true := by
  rcases hfind : dictFind (String.mk ((w0 :: wr).map jsToLower)) dictEntries
    with _ | v
  · exact ⟨w0, wr, correctWord_of_find_none hfind, hl⟩
  · have hmem := dictFind_some_mem hfind
    have hvs := dict_values_shape _ hmem
    rcases hvd : v.data with _ | ⟨v0, vt⟩
    · exact absurd hvd hvs.1
    have hv0 : isLowerAlpha v0 = true := by
      have := hvs.2
      rwa [hvd] at this
    refine ⟨v0, vt, ?_, hv0⟩
    rw [correctWord_of_find_some hfind hvd,
      if_neg (fun he => jsToUpper_ne_self hl he.symm)]

theorem casAux_cons_head (n : Nat) (c : Char) (cs : List Char) :
    ∃ t, casAux (n + 1) (c :: cs) = c :: t := by
  by_cases hse : isSentEnd c = true
  · by_cases htw : (cs.takeWhile isJsSpace).isEmpty = true
    · exact ⟨_, casAux_cons_sentEnd_nows hse htw⟩
    · have htw2 : (cs.takeWhile isJsSpace).isEmpty = false := by simpa using htw
      rcases hdw : cs.dropWhile isJsSpace with _ | ⟨d, ds⟩
      · exact ⟨_, casAux_cons_sentEnd_dwnil hse hdw⟩
      · by_cases hld : isLowerAlpha d = true
        · refine ⟨cs.takeWhile isJsSpace ++ jsToUpper d :: casAux n ds, ?_⟩
          rw [casAux_cons_sentEnd_hit hse htw2 hdw hld, List.cons_append]
        · exact ⟨_, casAux_cons_sentEnd_miss hse htw2 hdw (by simpa using hld)⟩
  · have hse2 : isSentEnd c = false := by simpa using hse
    by_cases hnl : c = '\n'
    · subst hnl
      cases cs with
      | nil => exact ⟨[], casAux_cons_newline_nil⟩
      | cons d ds =>
        by_cases hld : isLowerAlpha d = true
        · exact ⟨_, casAux_cons_newline_lower hld⟩
        · exact ⟨_, casAux_cons_newline_miss (by simpa using hld)⟩
    · exact ⟨_, casAux_cons_other hse2 hnl⟩

theorem autocorrect_single_word {w : List Char} (h0 : w ≠ [])
    (hw : ∀ x ∈ w, isWordChar x = true) (hl : isLowerAlpha w.headI = true) :
    isUpperAlpha ((autocorrectList w).headI) = true ∧ autocorrectList w ≠ w := by
  rcases w with _ | ⟨w0, wr⟩
  · exact absurd rfl h0
  have hl0 : isLowerAlpha w0 = true := hl
  rcases @correctWord_head_lower w0 wr hl0 with ⟨r0, rt, hcw, hr0⟩
  have hwp : wordPassList (w0 :: wr) = r0 :: rt := by
    rw [wordPassList_all_word (by simp) hw, hcw]
  have hauto : autocorrectList (w0 :: wr) =
      capFirst (capAfterSepList (r0 :: rt)) := by
    rw [autocorrectList, capitalizePass, hwp]
  rcases casAux_cons_head rt.length r0 rt with ⟨t, hcas⟩
  have hcas2 : capAfterSepList (r0 :: rt) = r0 :: t := hcas
  have hcf : capFirst (r0 :: t) = jsToUpper r0 :: t := by
    simp only [capFirst, hr0]
    simp
  have hfinal : autocorrectList (w0 :: wr) = jsToUpper r0 :: t := by
    rw [hauto, hcas2, hcf]
  constructor
  · rw [hfinal]
    exact isUpperAlpha_jsToUpper hr0
  · rw [hfinal]
    intro he
    have hhead : jsToUpper r0 = w0 := by
      have := congrArg List.headI he
      simpa using this
    have : isUpperAlpha w0 = true := hhead ▸ isUpperAlpha_jsToUpper hr0
    rw [upper_not_lower this] at hl0
    cases hl0

theorem liveWordEdit_iff (typed line : List Char) (ch : Nat) (e : LiveEdit) :
    liveWordEdit typed line ch = some e ↔
      ∃ c w, typed.getLast? = some c ∧ c ∈ triggerChars ∧
        ((splitB (line.take ch)).dropLast).getLast? = some w ∧ w ≠ [] ∧
        autocorrectList w ≠ w ∧
        e = ⟨jsLastIndexOf line w, jsLastIndexOf line w + w.length,
             autocorrectList w⟩ := by
  rcases hg : typed.getLast? with _ | c
  · simp only [liveWordEdit, hg]
    constructor
    · intro h; cases h
    · rintro ⟨c2, w2, hc2, _⟩
      cases hc2
  · simp only [liveWordEdit, hg]
    by_cases hmem : c ∈ triggerChars
    · rw [if_pos hmem]
      rcases hw : ((splitB (line.take ch)).dropLast).getLast? with _ | w
      · simp only [hw]
        constructor
        · intro h; cases h
        · rintro ⟨c2, w2, hc2, _, hw2, _⟩
          cases hc2
          cases hw2
      · simp only [hw]
        by_cases hwe : w = []
        · subst hwe
          rw [if_pos rfl]
          constructor
          · intro h; cases h
          · rintro ⟨c2, w2, hc2, _, hw2, hne, _⟩
            cases hc2
            cases hw2
            exact absurd rfl hne
        · rw [if_neg hwe]
          by_cases hch : autocorrectList w ≠ w
          · rw [if_pos hch]
            constructor
            · intro h
              cases h
              exact ⟨c, w, rfl, hmem, rfl, hwe, hch, rfl⟩
            · rintro ⟨c2, w2, hc2, _, hw2, _, _, he⟩
              cases hc2
              cases hw2
              rw [he]
          · rw [if_neg hch]
            constructor
            · intro h; cases h
            · rintro ⟨c2, w2, hc2, _, hw2, _, hne, _⟩
              cases hc2
              cases hw2
              exact absurd hne hch
    · rw [if_neg hmem]
      constructor
      · intro h; cases h
      · rintro ⟨c2, w2, hc2, hmem2, _⟩
        cases hc2
        exact absurd hmem2 hmem

theorem liveWordEdit_none_of_extract_none {typed line : List Char} {ch : Nat}
    (h : ((splitB (line.take ch)).dropLast).getLast? = none) :
    liveWordEdit typed line ch = none := by
  rcases hg : typed.getLast? with _ | c
  · simp only [liveWordEdit, hg]
  · simp only [liveWordEdit, hg, h]
    split <;> rfl

theorem extract_of_take_nil {line : List Char} {ch : Nat}
    (h : line.take ch = []) :
    ((splitB (line.take ch)).dropLast).getLast? = none := by
  rw [h]
  rfl

/-- C1: for every dictionary entry `m -> c`, word-level correction of a token
that lowercases to `m` produces `c` with its first character capitalized if
and only if the original token's first character was uppercase, the remaining
characters of `c` taken verbatim from the dictionary value; in particular
the word pass maps `"Teh"` to `"The"` and `"teh"` to `"the"`. -/
theorem claim1_word_casing :
    (∀ m c : String, (m, c) ∈ dictEntries → ∀ w : List Char, w ≠ [] →
      w.map jsToLower = m.data →
      wordPassList w =
        if isUpperAlpha w.headI = true then jsToUpper c.data.headI :: c.data.tail
        else c.data) ∧
    wordPassList ("Teh".data) = "The".data ∧
    wordPassList ("teh".data) = "the".data := by
  refine ⟨?_, by decide, by decide⟩
  intro m c hmem w hw hlow
  have hword : ∀ x ∈ w, isWordChar x = true := by
    intro x hx
    have hx2 : jsToLower x ∈ m.data := by
      rw [← hlow]
      exact List.mem_map_of_mem _ hx
    exact (case_of_jsToLower ((dict_keys_lower _ hmem).2 _ hx2) rfl).1
  rw [wordPassList_all_word hw hword]
  exact correctWord_dict_entry hmem hw hlow

/-- Witness for C1 at the entry `teh -> the` and the token `"Teh"`. -/
theorem claim1_word_casing_witness :
    wordPassList ("Teh".data) =
      if isUpperAlpha (("Teh".data).headI) = true
      then jsToUpper (("the" : String).data.headI) :: ("the" : String).data.tail
      else ("the" : String).data :=
  claim1_word_casing.1 "teh" "the" (by decide) ("Teh".data) (by decide) (by decide)

/-- C2: `autocorrectText` is the word-substitution pass followed by the
capitalization pass, in that order, so a misspelling at a sentence start is
both corrected and capitalized; concretely on
`"teh dog barks. teh cat meows"` it yields
`"The dog barks. The cat meows"`. -/
theorem claim2_pipeline_order :
    (∀ s : String,
      autocorrectText s = String.mk (capitalizePass (wordPassList s.data))) ∧
    autocorrectText "teh dog barks. teh cat meows" =
      "The dog barks. The cat meows" :=
  ⟨fun _ => rfl, by decide⟩

/-- C4: the capitalization pass upper-cases exactly the lowercase letter at
position zero and every lowercase letter standing immediately after a
sentence-ending mark plus one or more whitespace characters or after a
newline, and leaves every other character unchanged (`capSpec` is the
position-by-position statement of that rule). -/
theorem claim4_capitalization_exact :
    ∀ l : List Char, capitalizePass l = capSpec l :=
  capitalizePass_eq_capSpec

/-- C5: the whole-document command path and the live-typing path correct
text through the same function over the same dictionary, hence produce
identical output on identical input. -/
theorem claim5_paths_agree :
    ∀ s : String, commandAutocorrect s = liveAutocorrectWord s :=
  fun _ => rfl

/-- Counterexample to C6 as stated: with last typed character `','` — which
is neither a space nor one of `.`, `!`, `?` — the live handler still acts,
replacing `"teh"` by `"The"` on the line `"teh,"`. -/
theorem claim6_counterexample :
    liveWordEdit (",".data) ("teh,".data) 4 =
      some ⟨0, 3, "The".data⟩ ∧
    (",".data).getLast? = some ',' ∧
    ',' ∉ [' ', '.', '!', '?'] :=
  ⟨by decide, by decide, by decide⟩

/-- C7 (code bug): on the line `"I recieve "` with the cursor at column 10
after typing a space, the handler replaces `"recieve"` (span 2..9) with
`"Receive"`, not `"receive"` — the capitalization pass is applied to the
extracted word — so the line becomes `"I Receive "`; on an empty line no
action is taken. -/
theorem claim7_live_result :
    liveWordEdit (" ".data) ("I recieve ".data) 10 =
      some ⟨2, 9, "Receive".data⟩ ∧
    liveWordEdit (" ".data) ([] : List Char) 0 = none :=
  ⟨by decide, by decide⟩

instance exceptDecEq {e a : Type} [DecidableEq e] [DecidableEq a] :
    DecidableEq (Except e a) := fun x y =>
  match x, y with
  | .error x1, .error y1 =>
    if h : x1 = y1 then isTrue (by rw [h])
    else isFalse (by intro he; cases he; exact h rfl)
  | .ok x1, .ok y1 =>
    if h : x1 = y1 then isTrue (by rw [h])
    else isFalse (by intro he; cases he; exact h rfl)
  | .error _, .ok _ => isFalse (by intro he; cases he)
  | .ok _, .error _ => isFalse (by intro he; cases he)

/-- The one exception the engine can raise: calling `.toUpperCase()` on
`undefined` (the result of indexing a non-string lookup value with `[0]`). -/
inductive JsError : Type
  | typeError : JsError
deriving DecidableEq, Repr

/-- Value produced by the JavaScript property access `dictionary[key]` on the
object literal of main.ts lines 38-100: an own data property (a string), a
member inherited from `Object.prototype` (a truthy non-string object — the
`Object` constructor for key `"constructor"`, the prototype object for key
`"__proto__"`; these are the only `Object.prototype` members whose names are
all-lowercase and hence reachable from `word.toLowerCase()`), or
`undefined`. -/
inductive JsValue : Type
  | str : String → JsValue
  | obj : JsValue
  | undef : JsValue
deriving DecidableEq, Repr

/-- Full JavaScript semantics of `dictionary[key]` (main.ts line 107),
prototype chain included. -/
def jsDictGet (key : String) : JsValue :=
  match dictFind key dictEntries with
  | some v => JsValue.str v
  | none =>
    if key = "constructor" ∨ key = "__proto__" then JsValue.obj else JsValue.undef

/-- JavaScript truthiness of the lookup result, as tested by
`if (dictionary[lower])`: a string is truthy iff nonempty, an object is
truthy, `undefined` is falsy. -/
def jsTruthy : JsValue → Bool
  | JsValue.str v => !v.data.isEmpty
  | JsValue.obj => true
  | JsValue.undef => false

/-- The string `String.replace` substitutes when the callback returns the
inherited `Object` constructor (the only non-string callback result the
program can produce: tokens lowercasing to `"constructor"` whose first
character is lowercase).  V8, JavaScriptCore and SpiderMonkey all render the
native `Object` function this way. -/
def inheritedObjStr : List Char := "function Object() { [native code] }".data

/-- The replace callback of main.ts lines 106-112 under full JavaScript
property-access semantics.  An inherited `Object.prototype` hit passes the
truthiness test; then `dictionary[lower][0]` is `undefined`, so when
`word[0] === word[0].toUpperCase()` the `.toUpperCase()` call throws a
TypeError, and otherwise the callback returns the inherited object, which
`String.replace` coerces to `inheritedObjStr`. -/
def correctWordJs (w : List Char) : Except JsError (List Char) :=
  if jsTruthy (jsDictGet (String.mk (w.map jsToLower))) then
    match w, jsDictGet (String.mk (w.map jsToLower)) with
    | [], _ => Except.error JsError.typeError
    | w0 :: _, hit =>
      if w0 = jsToUpper w0 then
        match hit with
        | JsValue.str v =>
          match v.data with
          | v0 :: vt => Except.ok (jsToUpper v0 :: vt)
          | [] => Except.error JsError.typeError
        | _ => Except.error JsError.typeError
      else
        match hit with
        | JsValue.str v => Except.ok v.data
        | _ => Except.ok inheritedObjStr
  else Except.ok w

/-- `replace(/\b\w+\b/g, …)` under full JavaScript semantics: callbacks run
left to right and an exception aborts the whole replace. -/
def wrJsAux : Nat → List Char → Except JsError (List Char)
  | _, [] => Except.ok []
  | 0, l => Except.ok l
  | fuel + 1, c :: cs =>
    if isWordChar c then
      match correctWordJs (c :: cs.takeWhile isWordChar) with
      | Except.error e => Except.error e
      | Except.ok r =>
        match wrJsAux fuel (cs.dropWhile isWordChar) with
        | Except.error e => Except.error e
        | Except.ok rest => Except.ok (r ++ rest)
    else
      match wrJsAux fuel cs with
      | Except.error e => Except.error e
      | Except.ok rest => Except.ok (c :: rest)

/-- The word-substitution pass under full JavaScript semantics. -/
def wordPassJs (l : List Char) : Except JsError (List Char) :=
  wrJsAux l.length l

/-- `autocorrectText` under full JavaScript semantics: a TypeError in the
word pass propagates; the capitalization passes themselves cannot throw. -/
def autocorrectJsList (l : List Char) : Except JsError (List Char) :=
  match wordPassJs l with
  | Except.error e => Except.error e
  | Except.ok r => Except.ok (capitalizePass r)

/-- `autocorrectText(text: string)` under full JavaScript semantics. -/
def autocorrectJsText (s : String) : Except JsError String :=
  match autocorrectJsList s.data with
  | Except.error e => Except.error e
  | Except.ok r => Except.ok (String.mk r)

/-- The word-replacement decision of `applyLiveAutocorrect` (main.ts lines
242-262) under full JavaScript semantics: a TypeError raised while
correcting the extracted word propagates out of the change handler and no
edit is issued. -/
def liveWordEditJs (typed line : List Char) (ch : Nat) :
    Except JsError (Option LiveEdit) :=
  match typed.getLast? with
  | none => Except.ok none
  | some lastChar =>
    if lastChar ∈ triggerChars then
      match ((splitB (line.take ch)).dropLast).getLast? with
      | none => Except.ok none
      | some w =>
        if w = [] then Except.ok none
        else
          match autocorrectJsList w with
          | Except.error e => Except.error e
          | Except.ok corrected =>
            if corrected ≠ w then
              Except.ok (some ⟨jsLastIndexOf line w,
                jsLastIndexOf line w + w.length, corrected⟩)
            else Except.ok none
    else Except.ok none

theorem jsDictGet_eq_str {key v : String} (h : jsDictGet key = JsValue.str v) :
    dictFind key dictEntries = some v := by
  rcases hf : dictFind key dictEntries with _ | w
  · simp only [jsDictGet, hf] at h
    by_cases hp : key = "constructor" ∨ key = "__proto__"
    · rw [if_pos hp] at h; cases h
    · rw [if_neg hp] at h; cases h
  · simp only [jsDictGet, hf] at h
    cases h
    rfl

theorem jsDictGet_eq_undef {key : String} (h : jsDictGet key = JsValue.undef) :
    dictFind key dictEntries = none := by
  rcases hf : dictFind key dictEntries with _ | w
  · rfl
  · simp only [jsDictGet, hf] at h
    cases h

theorem correctWordJs_safe {w : List Char} (h0 : w ≠ [])
    (hsafe : jsDictGet (String.mk (w.map jsToLower)) ≠ JsValue.obj) :
    correctWordJs w = Except.ok (correctWord w) := by
  rcases hget : jsDictGet (String.mk (w.map jsToLower)) with v | _ | _
  · have hfind := jsDictGet_eq_str hget
    have hmem := dictFind_some_mem hfind
    have hvs := dict_values_shape _ hmem
    rcases hvd : v.data with _ | ⟨v0, vt⟩
    · exact absurd hvd hvs.1
    have htr : jsTruthy (JsValue.str v) = true := by
      simp [jsTruthy, hvd]
    rcases w with _ | ⟨w0, wr⟩
    · exact absurd rfl h0
    rw [correctWord_of_find_some hfind hvd]
    simp only [correctWordJs, hget, htr, if_true, hvd]
    by_cases hcond : w0 = jsToUpper w0
    · rw [if_pos hcond, if_pos hcond]
    · rw [if_neg hcond, if_neg hcond]
  · exact absurd hget hsafe
  · rw [correctWord_of_find_none (jsDictGet_eq_undef hget)]
    simp [correctWordJs, hget, jsTruthy]

theorem wrJsAux_nil (fuel : Nat) : wrJsAux fuel [] = Except.ok [] := by
  cases fuel <;> rfl

theorem wrJsAux_safe :
    ∀ n l, l.length ≤ n →
      (∀ u ∈ wordTokens l,
        jsDictGet (String.mk (u.map jsToLower)) ≠ JsValue.obj) →
      wrJsAux n l = Except.ok (wrAux correctWord n l) := by
  intro n
  induction n with
  | zero =>
    intro l h1 _
    have : l = [] := List.length_eq_zero.1 (Nat.le_zero.1 h1)
    subst this
    rw [wrJsAux_nil, wrAux_nil]
  | succ n ih =>
    intro l h1 hs
    cases l with
    | nil => rw [wrJsAux_nil, wrAux_nil]
    | cons c cs =>
      have hcs : cs.length ≤ n := Nat.le_of_succ_le_succ h1
      show (if isWordChar c then
              match correctWordJs (c :: cs.takeWhile isWordChar) with
              | Except.error e => Except.error e
              | Except.ok r =>
                match wrJsAux n (cs.dropWhile isWordChar) with
                | Except.error e => Except.error e
                | Except.ok rest => Except.ok (r ++ rest)
            else
              match wrJsAux n cs with
              | Except.error e => Except.error e
              | Except.ok rest => Except.ok (c :: rest)) =
        Except.ok (if isWordChar c then
              correctWord (c :: cs.takeWhile isWordChar) ++
                wrAux correctWord n (cs.dropWhile isWordChar)
            else c :: wrAux correctWord n cs)
      by_cases hc : isWordChar c
      · rw [if_pos hc, if_pos hc]
        have hrun : correctWordJs (c :: cs.takeWhile isWordChar) =
            Except.ok (correctWord (c :: cs.takeWhile isWordChar)) := by
          apply correctWordJs_safe (by simp)
          apply hs
          rw [wordTokens_cons_word hc]
          exact List.mem_cons_self _ _
        have hrest : wrJsAux n (cs.dropWhile isWordChar) =
            Except.ok (wrAux correctWord n (cs.dropWhile isWordChar)) := by
          apply ih _ (Nat.le_trans (length_dropWhile_le _ _) hcs)
          intro u hu
          apply hs
          rw [wordTokens_cons_word hc]
          exact List.mem_cons_of_mem _ hu
        rw [hrun, hrest]
      · rw [if_neg hc, if_neg hc]
        have hrest : wrJsAux n cs = Except.ok (wrAux correctWord n cs) := by
          apply ih cs hcs
          intro u hu
          apply hs
          rwa [wordTokens_cons_nonword (by simpa using hc)]
        rw [hrest]

theorem wordPassJs_safe {l : List Char}
    (hs : ∀ u ∈ wordTokens l,
      jsDictGet (String.mk (u.map jsToLower)) ≠ JsValue.obj) :
    wordPassJs l = Except.ok (wordPassList l) :=
  wrJsAux_safe l.length l (Nat.le_refl _) hs

theorem wordTokens_append_aux :
    ∀ n (a b : List Char), a.length ≤ n →
      (b = [] ∨ ∃ d ds, b = d :: ds ∧ isWordChar d = false) →
      wordTokens (a ++ b) = wordTokens a ++ wordTokens b := by
  intro n
  induction n with
  | zero =>
    intro a b h1 _
    have : a = [] := List.length_eq_zero.1 (Nat.le_zero.1 h1)
    subst this
    simp [wordTokens_nil]
  | succ n ih =>
    intro a b h1 hb
    cases a with
    | nil => simp [wordTokens_nil]
    | cons c a2 =>
      have ha2 : a2.length ≤ n := Nat.le_of_succ_le_succ h1
      have hbtw : b.takeWhile isWordChar = [] := by
        rcases hb with rfl | ⟨d, ds, rfl, hd⟩
        · rfl
        · rw [List.takeWhile_cons_of_neg (by simp [hd])]
      have hbdw : b.dropWhile isWordChar = b := by
        rcases hb with rfl | ⟨d, ds, rfl, hd⟩
        · rfl
        · rw [List.dropWhile_cons_of_neg (by simp [hd])]
      by_cases hc : isWordChar c
      · rw [List.cons_append, wordTokens_cons_word hc, wordTokens_cons_word hc]
        by_cases hall : ∀ x ∈ a2, isWordChar x = true
        · rw [takeWhile_append_of_all b hall, dropWhile_append_of_all b hall,
            hbtw, hbdw, List.append_nil,
            takeWhile_eq_self_of_all hall, dropWhile_eq_nil_of_all hall,
            wordTokens_nil, List.cons_append, List.nil_append]
        · rw [takeWhile_append_of_not_all b hall, dropWhile_append_of_not_all b hall,
            ih (a2.dropWhile isWordChar) b
              (Nat.le_trans (length_dropWhile_le _ _) ha2) hb,
            List.cons_append]
      · rw [List.cons_append,
          wordTokens_cons_nonword (by simpa using hc),
          wordTokens_cons_nonword (by simpa using hc),
          ih a2 b ha2 hb]

theorem wordTokens_all_word {l : List Char} (h0 : l ≠ [])
    (h : ∀ x ∈ l, isWordChar x = true) : wordTokens l = [l] := by
  cases l with
  | nil => exact absurd rfl h0
  | cons c cs =>
    rw [wordTokens_cons_word (h c (List.mem_cons_self c cs)),
      takeWhile_eq_self_of_all (fun x hx => h x (List.mem_cons_of_mem c hx)),
      dropWhile_eq_nil_of_all (fun x hx => h x (List.mem_cons_of_mem c hx)),
      wordTokens_nil]

theorem wordTokens_wordPass_mem_aux :
    ∀ n l, l.length ≤ n →
      ∀ u ∈ wordTokens (wordPassList l),
        ∃ t ∈ wordTokens l, u ∈ wordTokens (correctWord t) := by
  intro n
  induction n with
  | zero =>
    intro l h1 u hu
    have : l = [] := List.length_eq_zero.1 (Nat.le_zero.1 h1)
    subst this
    rw [wordPassList_nil, wordTokens_nil] at hu
    simp at hu
  | succ n ih =>
    intro l h1 u hu
    cases l with
    | nil =>
      rw [wordPassList_nil, wordTokens_nil] at hu
      simp at hu
    | cons c cs =>
      have hcs : cs.length ≤ n := Nat.le_of_succ_le_succ h1
      by_cases hc : isWordChar c
      · rw [wordPassList_cons_word hc] at hu
        have hb : wordPassList (cs.dropWhile isWordChar) = [] ∨
            ∃ d ds, wordPassList (cs.dropWhile isWordChar) = d :: ds ∧
              isWordChar d = false := by
          rcases hdw : cs.dropWhile isWordChar with _ | ⟨d, ds⟩
          · left; exact wordPassList_nil
          · right
            have hd : isWordChar d = false := head_dropWhile_false hdw
            exact ⟨d, wordPassList ds, wordPassList_cons_nonword hd, hd⟩
        rcases hb with hnil | ⟨d, ds, heq, hd⟩
        · rw [hnil, List.append_nil] at hu
          refine ⟨c :: cs.takeWhile isWordChar, ?_, hu⟩
          rw [wordTokens_cons_word hc]
          exact List.mem_cons_self _ _
        · rw [heq] at hu
          rw [wordTokens_append_aux (correctWord (c :: cs.takeWhile isWordChar)).length
            _ _ (Nat.le_refl _) (Or.inr ⟨d, ds, rfl, hd⟩)] at hu
          rcases List.mem_append.1 hu with hu1 | hu2
          · refine ⟨c :: cs.takeWhile isWordChar, ?_, hu1⟩
            rw [wordTokens_cons_word hc]
            exact List.mem_cons_self _ _
          · rw [← heq] at hu2
            rcases ih (cs.dropWhile isWordChar)
              (Nat.le_trans (length_dropWhile_le _ _) hcs) u hu2 with ⟨t, ht, hut⟩
            refine ⟨t, ?_, hut⟩
            rw [wordTokens_cons_word hc]
            exact List.mem_cons_of_mem _ ht
      · rw [wordPassList_cons_nonword (by simpa using hc),
          wordTokens_cons_nonword (by simpa using hc)] at hu
        rcases ih cs hcs u hu with ⟨t, ht, hut⟩
        refine ⟨t, ?_, hut⟩
        rwa [wordTokens_cons_nonword (by simpa using hc)]

theorem dict_value_tokens_safe :
    ∀ p ∈ dictEntries, ∀ u ∈ wordTokens p.2.data,
      jsDictGet (String.mk (u.map jsToLower)) ≠ JsValue.obj := by
  decide

theorem dict_value_upper_tokens_safe :
    ∀ p ∈ dictEntries,
      ∀ u ∈ wordTokens (jsToUpper p.2.data.headI :: p.2.data.tail),
        jsDictGet (String.mk (u.map jsToLower)) ≠ JsValue.obj := by
  decide

theorem wordPass_tokens_safe {l : List Char}
    (hs : ∀ u ∈ wordTokens l,
      jsDictGet (String.mk (u.map jsToLower)) ≠ JsValue.obj) :
    ∀ u ∈ wordTokens (wordPassList l),
      jsDictGet (String.mk (u.map jsToLower)) ≠ JsValue.obj := by
  intro u hu
  rcases wordTokens_wordPass_mem_aux l.length l (Nat.le_refl _) u hu with
    ⟨t, ht, hut⟩
  rcases wordTokens_shape ht with ⟨ht0, htw⟩
  rcases hfind : dictFind (String.mk (t.map jsToLower)) dictEntries with _ | v
  · rw [correctWord_of_find_none hfind, wordTokens_all_word ht0 htw] at hut
    rw [List.mem_singleton.1 hut]
    exact hs t ht
  · have hmem := dictFind_some_mem hfind
    have hvs := dict_values_shape _ hmem
    rcases t with _ | ⟨t0, tr⟩
    · exact absurd rfl ht0
    rcases hvd : v.data with _ | ⟨v0, vt⟩
    · exact absurd hvd hvs.1
    rw [correctWord_of_find_some hfind hvd] at hut
    by_cases hcond : t0 = jsToUpper t0
    · rw [if_pos hcond] at hut
      have := dict_value_upper_tokens_safe _ hmem u ?_
      · exact this
      · rw [hvd]
        simpa using hut
    · rw [if_neg hcond] at hut
      apply dict_value_tokens_safe _ hmem u
      rw [hvd]
      exact hut

theorem liveWordEditJs_some_iff (typed line : List Char) (ch : Nat)
    (e : LiveEdit) :
    liveWordEditJs typed line ch = Except.ok (some e) ↔
      ∃ c w r, typed.getLast? = some c ∧ c ∈ triggerChars ∧
        ((splitB (line.take ch)).dropLast).getLast? = some w ∧ w ≠ [] ∧
        autocorrectJsList w = Except.ok r ∧ r ≠ w ∧
        e = ⟨jsLastIndexOf line w, jsLastIndexOf line w + w.length, r⟩ := by
  rcases hg : typed.getLast? with _ | c
  · simp only [liveWordEditJs, hg]
    constructor
    · intro h; cases h
    · rintro ⟨c2, w2, r2, hc2, _⟩
      cases hc2
  · simp only [liveWordEditJs, hg]
    by_cases hmem : c ∈ triggerChars
    · rw [if_pos hmem]
      rcases hw : ((splitB (line.take ch)).dropLast).getLast? with _ | w
      · simp only [hw]
        constructor
        · intro h; cases h
        · rintro ⟨c2, w2, r2, hc2, _, hw2, _⟩
          cases hc2
          cases hw2
      · simp only [hw]
        by_cases hwe : w = []
        · subst hwe
          rw [if_pos rfl]
          constructor
          · intro h; cases h
          · rintro ⟨c2, w2, r2, hc2, _, hw2, hne, _⟩
            cases hc2
            cases hw2
            exact absurd rfl hne
        · rw [if_neg hwe]
          rcases hac : autocorrectJsList w with e2 | r
          · simp only [hac]
            constructor
            · intro h; cases h
            · rintro ⟨c2, w2, r2, hc2, _, hw2, _, har, _⟩
              cases hc2
              cases hw2
              rw [hac] at har
              cases har
          · simp only [hac]
            by_cases hch : r ≠ w
            · rw [if_pos hch]
              constructor
              · intro h
                cases h
                exact ⟨c, w, r, rfl, hmem, rfl, hwe, hac, hch, rfl⟩
              · rintro ⟨c2, w2, r2, hc2, _, hw2, _, har, _, he⟩
                cases hc2
                cases hw2
                rw [hac] at har
                cases har
                rw [he]
            · rw [if_neg hch]
              constructor
              · intro h; cases h
              · rintro ⟨c2, w2, r2, hc2, _, hw2, _, har, hne, _⟩
                cases hc2
                cases hw2
                rw [hac] at har
                cases har
                exact absurd hne hch
    · rw [if_neg hmem]
      constructor
      · intro h; cases h
      · rintro ⟨c2, w2, r2, hc2, hmem2, _⟩
        cases hc2
        exact absurd hmem2 hmem

theorem liveWordEditJs_of_extract_none {typed line : List Char} {ch : Nat}
    (h : ((splitB (line.take ch)).dropLast).getLast? = none) :
    liveWordEditJs typed line ch = Except.ok none := by
  rcases hg : typed.getLast? with _ | c
  · simp only [liveWordEditJs, hg]
  · simp only [liveWordEditJs, hg, h]
    split <;> rfl

theorem liveWordEditJs_no_trigger {typed line : List Char} {ch : Nat} {c : Char}
    (hc : typed.getLast? = some c) (hmem : c ∉ triggerChars) :
    liveWordEditJs typed line ch = Except.ok none := by
  simp only [liveWordEditJs, hc]
  rw [if_neg hmem]

theorem correctWordJs_head_lower {w0 : Char} {wr : List Char}
    (hl : isLowerAlpha w0 = true) :
    ∃ r0 rt, correctWordJs (w0 :: wr) = Except.ok (r0 :: rt) ∧
      isLowerAlpha r0 = true := by
  have hcond : ¬ w0 = jsToUpper w0 := fun he => jsToUpper_ne_self hl he.symm
  rcases hget : jsDictGet (String.mk ((w0 :: wr).map jsToLower)) with v | _ | _
  · have hfind := jsDictGet_eq_str hget
    have hmem := dictFind_some_mem hfind
    have hvs := dict_values_shape _ hmem
    rcases hvd : v.data with _ | ⟨v0, vt⟩
    · exact absurd hvd hvs.1
    have hv0 : isLowerAlpha v0 = true := by
      have := hvs.2
      rwa [hvd] at this
    refine ⟨v0, vt, ?_, hv0⟩
    have htr : jsTruthy (JsValue.str v) = true := by
      simp [jsTruthy, hvd]
    simp only [correctWordJs, hget, htr, if_true, hvd]
    rw [if_neg hcond]
  · refine ⟨'f', "unction Object() { [native code] }".data, ?_, by decide⟩
    simp only [correctWordJs, hget]
    rw [if_pos (show jsTruthy JsValue.obj = true from rfl), if_neg hcond]
    decide
  · refine ⟨w0, wr, ?_, hl⟩
    simp only [correctWordJs, hget]
    rw [if_neg (by simp [jsTruthy])]

theorem wordPassJs_all_word {w : List Char} (h0 : w ≠ [])
    (hall : ∀ x ∈ w, isWordChar x = true) :
    wordPassJs w = correctWordJs w := by
  cases w with
  | nil => exact absurd rfl h0
  | cons c cs =>
    show (if isWordChar c then
            match correctWordJs (c :: cs.takeWhile isWordChar) with
            | Except.error e => Except.error e
            | Except.ok r =>
              match wrJsAux cs.length (cs.dropWhile isWordChar) with
              | Except.error e => Except.error e
              | Except.ok rest => Except.ok (r ++ rest)
          else
            match wrJsAux cs.length cs with
            | Except.error e => Except.error e
            | Except.ok rest => Except.ok (c :: rest)) = correctWordJs (c :: cs)
    rw [if_pos (hall c (List.mem_cons_self c cs)),
      takeWhile_eq_self_of_all (fun x hx => hall x (List.mem_cons_of_mem c hx)),
      dropWhile_eq_nil_of_all (fun x hx => hall x (List.mem_cons_of_mem c hx)),
      wrJsAux_nil]
    rcases correctWordJs (c :: cs) with e | r
    · rfl
    · simp

theorem autocorrectJs_single_word {w : List Char} (h0 : w ≠ [])
    (hall : ∀ x ∈ w, isWordChar x = true) (hl : isLowerAlpha w.headI = true) :
    ∃ r, autocorrectJsList w = Except.ok r ∧ isUpperAlpha r.headI = true ∧
      r ≠ w := by
  rcases w with _ | ⟨w0, wr⟩
  · exact absurd rfl h0
  have hl0 : isLowerAlpha w0 = true := hl
  rcases @correctWordJs_head_lower w0 wr hl0 with ⟨r0, rt, hcw, hr0⟩
  have hwp : wordPassJs (w0 :: wr) = Except.ok (r0 :: rt) := by
    rw [wordPassJs_all_word (by simp) hall, hcw]
  rcases casAux_cons_head rt.length r0 rt with ⟨t, hcas⟩
  have hcas2 : capAfterSepList (r0 :: rt) = r0 :: t := hcas
  have hcf : capFirst (r0 :: t) = jsToUpper r0 :: t := by
    simp only [capFirst, hr0]
    simp
  have hfinal : autocorrectJsList (w0 :: wr) =
      Except.ok (jsToUpper r0 :: t) := by
    simp only [autocorrectJsList, hwp]
    rw [capitalizePass, hcas2, hcf]
  refine ⟨jsToUpper r0 :: t, hfinal, isUpperAlpha_jsToUpper hr0, ?_⟩
  intro he
  have hhead : jsToUpper r0 = w0 := by
    have := congrArg List.headI he
    simpa using this
  have hup : isUpperAlpha w0 = true := hhead ▸ isUpperAlpha_jsToUpper hr0
  rw [upper_not_lower hup] at hl0
  cases hl0

/-- Counterexample to C3 as stated: word-level correction does not yield a
(stable) result on every input — on the single-token input `"__proto__"`
(and on `"Constructor"`) the pass throws a TypeError through the inherited
`Object.prototype` member instead of returning a string. -/
theorem claim3_counterexample :
    wordPassJs ("__proto__".data) = Except.error JsError.typeError ∧
    wordPassJs ("Constructor".data) = Except.error JsError.typeError :=
  ⟨by decide, by decide⟩

/-- C3 (amended): word-level correction is idempotent on every input string
none of whose word tokens lowercases to an inherited `Object.prototype`
member name (`constructor`, `__proto__`): on such strings the pass returns a
result and applying it to that result returns it unchanged; correcting an
already-correct word (any stored dictionary value) is a no-op. -/
theorem claim3_amended :
    (∀ l : List Char,
      (∀ u ∈ wordTokens l,
        jsDictGet (String.mk (u.map jsToLower)) ≠ JsValue.obj) →
      wordPassJs l = Except.ok (wordPassList l) ∧
      wordPassJs (wordPassList l) = Except.ok (wordPassList l)) ∧
    (∀ m c : String, (m, c) ∈ dictEntries →
      wordPassJs c.data = Except.ok c.data) := by
  constructor
  · intro l hs
    refine ⟨wordPassJs_safe hs, ?_⟩
    rw [wordPassJs_safe (wordPass_tokens_safe hs), wordPass_idem]
  · intro m c hmem
    rw [wordPassJs_safe (fun u hu => dict_value_tokens_safe (m, c) hmem u hu),
      dict_values_fix (m, c) hmem]

/-- Witness for C3 on the safe input `"teh"` and the value `"the"`. -/
theorem claim3_amended_witness :
    (wordPassJs ("teh".data) = Except.ok (wordPassList ("teh".data)) ∧
      wordPassJs (wordPassList ("teh".data)) =
        Except.ok (wordPassList ("teh".data))) ∧
    wordPassJs (("the" : String).data) = Except.ok (("the" : String).data) :=
  ⟨claim3_amended.1 ("teh".data) (by decide),
   claim3_amended.2 "teh" "the" (by decide)⟩

/-- C6 (amended): under full JavaScript semantics the live handler issues a
word replacement exactly when the typed text is nonempty, its last character
is a space, comma, newline or one of `.`, `!`, `?`, a nonempty second-to-last
word-boundary segment of the line up to the cursor exists, and the full
corrector `autocorrectText` (word substitution plus capitalization — not the
word-level corrector alone) returns, without throwing, a result different
from that segment; the replacement span and text are as recorded, a
TypeError from the corrector propagates with no edit, and for a last typed
character outside the trigger set no action is taken. -/
theorem claim6_amended :
    (∀ (typed line : List Char) (ch : Nat) (e : LiveEdit),
      liveWordEditJs typed line ch = Except.ok (some e) ↔
        ∃ c w r, typed.getLast? = some c ∧ c ∈ triggerChars ∧
          ((splitB (line.take ch)).dropLast).getLast? = some w ∧ w ≠ [] ∧
          autocorrectJsList w = Except.ok r ∧ r ≠ w ∧
          e = ⟨jsLastIndexOf line w, jsLastIndexOf line w + w.length, r⟩) ∧
    (∀ (typed line : List Char) (ch : Nat) (c : Char),
      typed.getLast? = some c → c ∉ triggerChars →
      liveWordEditJs typed line ch = Except.ok none) :=
  ⟨liveWordEditJs_some_iff,
   fun _ _ _ _ hc hmem => liveWordEditJs_no_trigger hc hmem⟩

/-- Witness for C6: with last typed character `'x'`, not a trigger, the
handler takes no action on the line `"teh "`. -/
theorem claim6_amended_witness :
    liveWordEditJs ("x".data) ("teh ".data) 4 = Except.ok none :=
  claim6_amended.2 ("x".data) ("teh ".data) 4 'x' (by decide) (by decide)

/-- C8 (code bug): the token `"constructor"` contains no dictionary key, yet
`dictionary["constructor"]` is the truthy inherited `Object` constructor, so
the word pass replaces the token with its string rendering instead of
passing it through (and throws on `"Constructor"`); key-free words such as
`"banana"` do pass through unchanged in any casing. -/
theorem claim8_prototype_rewrite :
    wordPassJs ("constructor".data) = Except.ok inheritedObjStr ∧
    inheritedObjStr ≠ "constructor".data ∧
    wordPassJs ("Constructor".data) = Except.error JsError.typeError ∧
    wordPassJs ("banana".data) = Except.ok ("banana".data) ∧
    wordPassJs ("BaNaNa".data) = Except.ok ("BaNaNa".data) :=
  ⟨by decide, by decide, by decide, by decide, by decide⟩

/-- C9 (code bug): `autocorrectText` is not exception-free — on
`"__proto__"` or `"Constructor"` the callback evaluates
`dictionary[lower][0].toUpperCase()` on an inherited non-string value and
throws a TypeError; the empty string corrects to itself, and the live path
still tolerates an empty line and a cursor at line start by taking no
action. -/
theorem claim9_exception_path :
    autocorrectJsText "__proto__" = Except.error JsError.typeError ∧
    autocorrectJsText "Constructor" = Except.error JsError.typeError ∧
    autocorrectJsText "" = Except.ok "" ∧
    (∀ (typed : List Char) (ch : Nat),
      liveWordEditJs typed [] ch = Except.ok none) ∧
    (∀ typed line : List Char, liveWordEditJs typed line 0 = Except.ok none) := by
  refine ⟨by decide, by decide, rfl, ?_, ?_⟩
  · intro typed ch
    exact liveWordEditJs_of_extract_none (by rw [List.take_nil]; rfl)
  · intro typed line
    exact liveWordEditJs_of_extract_none rfl

/-- C10: under full JavaScript semantics `autocorrectText` on any single
lowercase-initial word returns, without throwing, a string whose first
character is uppercase and which differs from the input — even without a
dictionary entry, and even for `"constructor"`, whose inherited hit is
coerced and then capitalized — so the live handler rewrites every
lowercase-initial word it extracts. -/
theorem claim10_live_rewrites :
    (∀ w : List Char, w ≠ [] → (∀ x ∈ w, isWordChar x = true) →
      isLowerAlpha w.headI = true →
      ∃ r, autocorrectJsList w = Except.ok r ∧
        isUpperAlpha r.headI = true ∧ r ≠ w) ∧
    (∀ (typed line : List Char) (ch : Nat) (c : Char) (w : List Char),
      typed.getLast? = some c → c ∈ triggerChars →
      ((splitB (line.take ch)).dropLast).getLast? = some w →
      (∀ x ∈ w, isWordChar x = true) → isLowerAlpha w.headI = true →
      ∃ e, liveWordEditJs typed line ch = Except.ok (some e)) := by
  refine ⟨fun w h0 hall hl => autocorrectJs_single_word h0 hall hl, ?_⟩
  intro typed line ch c w hc hmem hw hall hl
  have h0 : w ≠ [] := by
    intro he
    rw [he] at hl
    exact absurd hl (by decide)
  rcases autocorrectJs_single_word h0 hall hl with ⟨r, har, _, hne⟩
  exact ⟨⟨jsLastIndexOf line w, jsLastIndexOf line w + w.length, r⟩,
    (liveWordEditJs_some_iff typed line ch _).2
      ⟨c, w, r, hc, hmem, hw, h0, har, hne, rfl⟩⟩

/-- Witness for C10 at the dictionary-free word `"banana"` and the
corresponding live edit. -/
theorem claim10_live_rewrites_witness :
    (∃ r, autocorrectJsList ("banana".data) = Except.ok r ∧
      isUpperAlpha r.headI = true ∧ r ≠ "banana".data) ∧
    ∃ e, liveWordEditJs (" ".data) ("banana ".data) 7 = Except.ok (some e) :=
  ⟨claim10_live_rewrites.1 ("banana".data) (by decide) (by decide) (by decide),
   claim10_live_rewrites.2 (" ".data) ("banana ".data) 7 ' ' ("banana".data)
     (by decide) (by decide) (by decide) (by decide) (by decide)⟩

end AutoCorrect
